import Mathlib

/-!
Verification of `VectorSorting.cpp` (procurement-bid loading and sorting).

Modelling conventions, chosen to mirror the C++ source faithfully:

* `std::string` is modelled as `List Char`, compared with the lexicographic
  linear order on `List Char` (C++ `operator<` on `std::string` is the
  byte-lexicographic order; on UTF-8 data the byte order and the
  codepoint-lexicographic order coincide).
* `double` is modelled as `DoubleVal`: a finite value (an exact `ℚ` — every
  concrete numeric value appearing in the claims (1, 1200, 1200.50, 0) is
  exactly representable in binary64, so no rounding is idealised away on
  them), a signed infinity, or a NaN.  The infinities and NaNs arise because
  `atof` accepts `INF`/`INFINITY`/`NAN` subject sequences.
* `std::vector<Bid>` is modelled as `List Bid`.  `operator[]` is unchecked in
  C++, so element access is modelled as an `Option`-returning lookup: `none`
  models an out-of-bounds access (undefined behaviour in the source).
* C++ `int` variables are modelled as `ℤ`, `size_t` as `ℕ`.  Where the source
  mixes the two in a comparison, the C++ usual arithmetic conversions convert
  the `int` operand to `size_t` (reduction modulo 2^64); this is modelled
  explicitly by `toUSize`.  C++ `int` division truncates towards zero and is
  modelled by `Int.tdiv`.
* `while` loops are modelled by structural recursion on an explicit `fuel`
  argument initialised to an upper bound on the number of iterations the loop
  can execute; exhausted fuel yields `none`, and the theorems below prove the
  executions of interest return `some`, i.e. never exhaust the fuel and never
  access out of bounds.
-/

/-- The value of a C `double`: a finite value (modelled exactly in `ℚ`), a
signed infinity, or a NaN (with its sign bit).  `atof` can produce all
three: infinities from `INF`/`INFINITY` subject sequences and from overflow
(overflow does not arise on the inputs considered here), NaNs from `NAN`
subject sequences. -/
inductive DoubleVal where
  | val : ℚ → DoubleVal
  | inf : Bool → DoubleVal
  | nan : Bool → DoubleVal
deriving DecidableEq

/-- The record type of `VectorSorting.cpp`: bid id, title, fund (strings) and
a monetary amount (a `double`, defaulted to `0.0` by the constructor). -/
structure Bid where
  bidId : List Char
  title : List Char
  fund : List Char
  amount : DoubleVal
deriving DecidableEq

instance : Inhabited Bid := ⟨⟨[], [], [], DoubleVal.val 0⟩⟩

/-- Conversion of a C++ `int` value to `size_t` (reduction modulo `2 ^ 64`),
as performed by the usual arithmetic conversions when an `int` and a `size_t`
meet in a comparison. -/
def toUSize (z : ℤ) : ℕ := (z % (2 ^ 64 : ℤ)).toNat

/-- Element access `bids[i]` with an `int` index `i`: `none` models the
out-of-bounds (undefined-behaviour) case. -/
def getI? (bids : List Bid) (i : ℤ) : Option Bid :=
  if 0 ≤ i then bids[i.toNat]? else none

/-- `std::swap(bids[i], bids[j])` for `size_t` indices: read both elements,
write them back exchanged; `none` models an out-of-bounds access. -/
def swap? (bids : List Bid) (i j : ℕ) : Option (List Bid) :=
  match bids[i]?, bids[j]? with
  | some a, some b => some ((bids.set i b).set j a)
  | _, _ => none

/-- `std::swap(bids[i], bids[j])` for `int` indices. -/
def swapI? (bids : List Bid) (i j : ℤ) : Option (List Bid) :=
  if 0 ≤ i ∧ 0 ≤ j then swap? bids i.toNat j.toNat else none

/-- Total variant of element access used only to state specifications;
out of range it returns the default bid. -/
def bidAt (bids : List Bid) (k : ℕ) : Bid := (bids[k]?).getD default

/-- The sequence is ascending by title (the program's sorting order). -/
def sortedByTitle (bids : List Bid) : Prop :=
  bids.Pairwise (fun a b => a.title ≤ b.title)

/-- The sequence is strictly ascending by title (pairwise distinct titles). -/
def strictSortedByTitle (bids : List Bid) : Prop :=
  bids.Pairwise (fun a b => a.title < b.title)

instance (bids : List Bid) : Decidable (sortedByTitle bids) := by
  unfold sortedByTitle; infer_instance

instance (bids : List Bid) : Decidable (strictSortedByTitle bids) := by
  unfold strictSortedByTitle; infer_instance

/-- Some bid occurs at a position in the (int-indexed) range `[b, e]`. -/
def elemInSeg (bids : List Bid) (b e : ℤ) (x : Bid) : Prop :=
  ∃ k, b ≤ k ∧ k ≤ e ∧ getI? bids k = some x

/-! ## Selection sort (`selectionSort` in the source)

```cpp
void selectionSort(vector<Bid>& bids) {
    int size = bids.size();
    for (size_t pos = 0; pos < size - 1; pos++) {
        int minIndex = pos;
        for (size_t j = pos + 1; j < size; j++) {
            if (bids[j].title < bids[minIndex].title) minIndex = j;
        }
        swap(bids[pos], bids[minIndex]);
    }
}
```

Note the guard `pos < size - 1`: `pos` has type `size_t` and `size - 1` has
type `int`, so `size - 1` is converted to `size_t`.  For `size = 0` this
yields `2 ^ 64 - 1`, the loop body runs, and `swap(bids[0], bids[0])`
accesses an empty vector out of bounds.  The model reproduces this through
`toUSize`. -/

/-- Inner scan of `selectionSort`: starting from current candidate `minIndex`
at scan position `j`, return the index of the minimum-title element of the
rest of the vector (first minimum wins, since the comparison is strict).
`fuel` bounds the number of iterations of the `for (j ...)` loop. -/
def minIndexFrom (size : ℤ) (bids : List Bid) : ℕ → ℕ → ℕ → Option ℕ
  | 0, minIndex, j => if j < toUSize size then none else some minIndex
  | fuel + 1, minIndex, j =>
    if j < toUSize size then
      match bids[j]?, bids[minIndex]? with
      | some bj, some bm =>
          minIndexFrom size bids fuel (if bj.title < bm.title then j else minIndex) (j + 1)
      | _, _ => none
    else some minIndex

/-- Outer loop of `selectionSort` over `pos`; `fuel` bounds the number of
iterations of the `for (pos ...)` loop. -/
def selSortLoop (size : ℤ) : ℕ → List Bid → ℕ → Option (List Bid)
  | 0, bids, pos => if pos < toUSize (size - 1) then none else some bids
  | fuel + 1, bids, pos =>
    if pos < toUSize (size - 1) then
      match minIndexFrom size bids (toUSize size) pos (pos + 1) with
      | none => none
      | some minIndex =>
        match swap? bids pos minIndex with
        | none => none
        | some bids' => selSortLoop size fuel bids' (pos + 1)
    else some bids

/-- `selectionSort(bids)`: `int size = bids.size()` then the loop from
`pos = 0`.  The outer loop runs at most `toUSize (size - 1)` iterations, but
one extra fuel step is irrelevant since each unfolding checks the guard. -/
def selectionSort (bids : List Bid) : Option (List Bid) :=
  selSortLoop (bids.length : ℤ) (toUSize ((bids.length : ℤ) - 1)) bids 0

/-! ## Quicksort (`partition` / `quickSort` in the source)

```cpp
int partition(vector<Bid>& bids, int begin, int end) {
    string pivot = bids[(begin + end) / 2].title;
    int low = begin;
    int high = end;
    while (true) {
        while (bids[low].title < pivot) low++;
        while (pivot < bids[high].title) high--;
        if (low >= high) return high;
        swap(bids[low], bids[high]);
        low++;
        high--;
    }
}

void quickSort(vector<Bid>& bids, int begin, int end) {
    if (begin < end) {
        int mid = partition(bids, begin, end);
        quickSort(bids, begin, mid);
        quickSort(bids, mid + 1, end);
    }
}
```
-/

/-- The inner `while (bids[low].title < pivot) low++;` scan.  `fuel` bounds
its iteration count (the scan moves right until it sees a title not below the
pivot, or walks out of the vector, which is an out-of-bounds access). -/
def scanLow (bids : List Bid) (pivot : List Char) : ℕ → ℤ → Option ℤ
  | 0, _ => none
  | fuel + 1, low =>
    match getI? bids low with
    | none => none
    | some b => if b.title < pivot then scanLow bids pivot fuel (low + 1) else some low

/-- The inner `while (pivot < bids[high].title) high--;` scan. -/
def scanHigh (bids : List Bid) (pivot : List Char) : ℕ → ℤ → Option ℤ
  | 0, _ => none
  | fuel + 1, high =>
    match getI? bids high with
    | none => none
    | some b => if pivot < b.title then scanHigh bids pivot fuel (high - 1) else some high

/-- The `while (true)` loop of `partition`, after the pivot title has been
read.  Each round advances both scans, then either returns `high` (indices
crossed) or swaps and continues inside the narrowed window.  `fuel` bounds
the number of rounds; each scan gets fuel `bids.length + 1`, an upper bound
on its steps from any in-bounds start. -/
def partLoop (pivot : List Char) : ℕ → List Bid → ℤ → ℤ → Option (List Bid × ℤ)
  | 0, _, _, _ => none
  | fuel + 1, bids, low, high =>
    match scanLow bids pivot (bids.length + 1) low with
    | none => none
    | some low' =>
      match scanHigh bids pivot (bids.length + 1) high with
      | none => none
      | some high' =>
        if low' ≥ high' then some (bids, high')
        else
          match swapI? bids low' high' with
          | none => none
          | some bids' => partLoop pivot fuel bids' (low' + 1) (high' - 1)

/-- `partition(bids, begin, end)`: read the pivot title at the truncating
midpoint `(begin + end) / 2`, then run the scan-and-swap loop.  The loop
window shrinks by at least two per swapping round, so `(end - begin) + 1`
rounds of fuel are ample. -/
def partition (bids : List Bid) (begin_ endI : ℤ) : Option (List Bid × ℤ) :=
  match getI? bids ((begin_ + endI).tdiv 2) with
  | none => none
  | some pb => partLoop pb.title ((endI - begin_).toNat + 1) bids begin_ endI

/-- `quickSort(bids, begin, end)`: recursion on `[begin, mid]` and
`[mid + 1, end]` when `begin < end`.  `fuel` bounds the recursion depth,
which is at most the width of the index range. -/
def quickSort : ℕ → List Bid → ℤ → ℤ → Option (List Bid)
  | 0, _, _, _ => none
  | fuel + 1, bids, begin_, endI =>
    if begin_ < endI then
      match partition bids begin_ endI with
      | none => none
      | some (bids', mid) =>
        match quickSort fuel bids' begin_ mid with
        | none => none
        | some bids'' => quickSort fuel bids'' (mid + 1) endI
    else some bids

/-- The driver's invocation `quickSort(bids, 0, bids.size() - 1)` (menu
option 4).  For an empty vector, `bids.size() - 1` wraps around in `size_t`
and converts back to the `int` value `-1`, which `(bids.length : ℤ) - 1`
equals; the fuel covers the maximal recursion depth. -/
def quickSortAll (bids : List Bid) : Option (List Bid) :=
  quickSort (bids.length + 1) bids 0 ((bids.length : ℤ) - 1)

/-! ## String-to-double conversion (`strToDouble` in the source)

```cpp
double strToDouble(string str, char ch) {
    str.erase(remove(str.begin(), str.end(), ch), str.end());
    return atof(str.c_str());
}
```

`atof` (C99 `strtod` semantics) parses the longest initial subject sequence
— optional whitespace and one optional sign, then either a decimal number
(digits with an optional decimal point, optional `e`/`E` exponent), a
hexadecimal number (`0x`/`0X`, hex digits with an optional point, optional
`p`/`P` binary exponent), or a case-insensitive `INF`/`INFINITY` or
`NAN`/`NAN(...)` form — and returns `0.0` when no subject sequence exists;
it never raises.  The model covers all of these forms: finite results are
represented exactly in `ℚ` (the idealisation: no binary64 rounding, which
is exact on every concrete value in the claims), `INF` forms yield a signed
infinity and `NAN` forms a NaN (the NaN payload in parentheses is
irrelevant to the value and is not modelled). -/

/-- C `isspace` on the default locale. -/
def isSpaceC (c : Char) : Bool :=
  c = ' ' || c = '\t' || c = '\n' || c = '\x0b' || c = '\x0c' || c = '\r'

/-- Value of a digit string, most significant first. -/
def digitsToNat (ds : List Char) : ℕ :=
  ds.foldl (fun a c => 10 * a + (c.toNat - '0'.toNat)) 0

/-- Scan the exponent part after `e`/`E`: optional sign then digits.  An
empty digit string contributes exponent `0` (the exponent marker is then not
part of the subject sequence). -/
def expPart (s : List Char) : ℤ :=
  let (eneg, s5) :=
    match s with
    | '-' :: r => (true, r)
    | '+' :: r => (false, r)
    | _ => (false, s)
  let eDs := s5.takeWhile Char.isDigit
  if eDs = [] then 0
  else if eneg then -(digitsToNat eDs : ℤ) else (digitsToNat eDs : ℤ)

/-- Fraction digits: when the remainder after the integer digits starts with
a decimal point, the digit run following it, else nothing. -/
def fracDigits (s3 : List Char) : List Char :=
  match s3 with
  | '.' :: rest => rest.takeWhile Char.isDigit
  | _ => []

/-- The remainder after the (optional) fraction. -/
def afterFrac (s3 : List Char) : List Char :=
  match s3 with
  | '.' :: rest => rest.dropWhile Char.isDigit
  | _ => s3

/-- The exponent contributed by the remainder after the fraction. -/
def expOf (s4 : List Char) : ℤ :=
  match s4 with
  | 'e' :: rest => expPart rest
  | 'E' :: rest => expPart rest
  | _ => 0

/-- Scan of the decimal subject sequence of `atof` after the optional sign:
integer digits and an optional fraction; `none` when no digit is found (no
conversion can be performed).  On success: sign, the digits read as a
natural number, the number of fraction digits, and the exponent. -/
def atofScanCore (neg : Bool) (s2 : List Char) : Option (Bool × ℕ × ℕ × ℤ) :=
  if (s2.takeWhile Char.isDigit).length + (fracDigits (s2.dropWhile Char.isDigit)).length = 0
  then none
  else
    some (neg,
      digitsToNat (s2.takeWhile Char.isDigit ++ fracDigits (s2.dropWhile Char.isDigit)),
      (fracDigits (s2.dropWhile Char.isDigit)).length,
      expOf (afterFrac (s2.dropWhile Char.isDigit)))

/-- C hexadecimal digit. -/
def isHexDigitC (c : Char) : Bool :=
  c.isDigit || decide ('a' ≤ c ∧ c ≤ 'f') || decide ('A' ≤ c ∧ c ≤ 'F')

/-- Value of a hexadecimal digit. -/
def hexDigitVal (c : Char) : ℕ :=
  if c.isDigit then c.toNat - '0'.toNat
  else if 'a' ≤ c ∧ c ≤ 'f' then c.toNat - 'a'.toNat + 10
  else c.toNat - 'A'.toNat + 10

/-- Value of a hexadecimal digit string, most significant first. -/
def hexToNat (ds : List Char) : ℕ :=
  ds.foldl (fun a c => 16 * a + hexDigitVal c) 0

/-- Hexadecimal fraction digits: when the remainder after the integer hex
digits starts with a point, the hex digit run following it, else nothing. -/
def hexFracDigits (s3 : List Char) : List Char :=
  match s3 with
  | '.' :: rest => rest.takeWhile isHexDigitC
  | _ => []

/-- The remainder after the (optional) hexadecimal fraction. -/
def hexAfterFrac (s3 : List Char) : List Char :=
  match s3 with
  | '.' :: rest => rest.dropWhile isHexDigitC
  | _ => s3

/-- The binary exponent contributed by the remainder after the hexadecimal
fraction (`p`/`P`, optional sign, digits; in `strtod` the binary exponent
part is optional). -/
def pExpOf (s4 : List Char) : ℤ :=
  match s4 with
  | 'p' :: rest => expPart rest
  | 'P' :: rest => expPart rest
  | _ => 0

/-- The sequence starts with a hexadecimal digit, or with a point followed
by a hexadecimal digit: exactly when a nonempty hexadecimal digit sequence
(optionally containing a point) follows. -/
def startsHexDigit : List Char → Bool
  | [] => false
  | c :: r =>
    if c = '.' then
      match r with
      | d :: _ => isHexDigitC d
      | [] => false
    else isHexDigitC c

/-- The hexadecimal prefix of the subject sequence after the optional sign:
`0x`/`0X` followed by a nonempty hexadecimal digit sequence (optionally
containing a point); `some` returns the remainder after the `0x`.  When the
digit sequence after `0x` is empty the subject sequence is the decimal `0`
instead, so this returns `none` and the decimal scan applies. -/
def hexPrefix? (s2 : List Char) : Option (List Char) :=
  match s2 with
  | c :: x :: rest =>
    if c = '0' ∧ (x = 'x' ∨ x = 'X') ∧ startsHexDigit rest then some rest
    else none
  | _ => none

/-- Value of a hexadecimal subject sequence, given the remainder after the
`0x`: hex digits, an optional hex fraction, an optional binary exponent. -/
def hexValue (neg : Bool) (rest : List Char) : DoubleVal :=
  DoubleVal.val
    ((if neg then
        -(hexToNat (rest.takeWhile isHexDigitC ++
            hexFracDigits (rest.dropWhile isHexDigitC)) : ℚ)
      else
        (hexToNat (rest.takeWhile isHexDigitC ++
            hexFracDigits (rest.dropWhile isHexDigitC)) : ℚ)) /
      16 ^ (hexFracDigits (rest.dropWhile isHexDigitC)).length *
      2 ^ pExpOf (hexAfterFrac (rest.dropWhile isHexDigitC)))

/-- `s` starts with `pat` up to letter case (`pat` is given in lowercase). -/
def startsWithCI : List Char → List Char → Bool
  | [], _ => true
  | _ :: _, [] => false
  | p :: ps, c :: cs => c.toLower = p && startsWithCI ps cs

/-- The `INF`/`INFINITY`/`NAN` subject sequences of `strtod`, checked after
the optional sign, case-insensitively: `some true` for a `NAN` form,
`some false` for an `INF` form (an `INFINITY` continuation does not change
the value; a `NAN(...)` payload does not either), `none` otherwise. -/
def specialOf (s2 : List Char) : Option Bool :=
  if startsWithCI ('n' :: 'a' :: 'n' :: []) s2 then some true
  else if startsWithCI ('i' :: 'n' :: 'f' :: []) s2 then some false
  else none

/-- `atof` after the optional whitespace and sign: a hexadecimal subject
sequence if present, else the decimal scan, else an `INF`/`NAN` form, else
no conversion (`0.0`). -/
def atofCore (neg : Bool) (s2 : List Char) : DoubleVal :=
  match hexPrefix? s2 with
  | some hrest => hexValue neg hrest
  | none =>
    match atofScanCore neg s2 with
    | some (sg, m, fracLen, ex) =>
        DoubleVal.val ((if sg then -(m : ℚ) else (m : ℚ)) / 10 ^ fracLen * 10 ^ ex)
    | none =>
      match specialOf s2 with
      | some isNan => if isNan then DoubleVal.nan neg else DoubleVal.inf neg
      | none => DoubleVal.val 0

/-- `atof`: skip whitespace, read one optional sign, then convert the
longest subject sequence; `0.0` when there is none.  Never raises. -/
def atof (s : List Char) : DoubleVal :=
  match s.dropWhile isSpaceC with
  | [] => atofCore false []
  | c :: rest =>
    if c = '-' then atofCore true rest
    else if c = '+' then atofCore false rest
    else atofCore false (c :: rest)

/-- `strToDouble(str, ch)`: erase every occurrence of `ch`, then `atof`. -/
def strToDouble (str : List Char) (ch : Char) : DoubleVal :=
  atof (str.filter (fun c => c ≠ ch))

/-- The sequence starts with a decimal digit, or with a decimal point
followed by a decimal digit. -/
def startsDecimal : List Char → Bool
  | [] => false
  | c :: r =>
    if c = '.' then
      match r with
      | d :: _ => d.isDigit
      | [] => false
    else c.isDigit

/-- The stripped remainder is parseable as a decimal number: after optional
whitespace and one optional sign it starts with a digit, or with a decimal
point followed by a digit.  This is the spec-level notion of "parseable";
the theorems below show `atofScan` succeeds only on such strings. -/
def decimalParseable (s : List Char) : Bool :=
  match s.dropWhile isSpaceC with
  | [] => false
  | c :: rest =>
    if c = '-' ∨ c = '+' then startsDecimal rest else startsDecimal (c :: rest)

/-- The string is an `INF`/`INFINITY`/`NAN` subject sequence after optional
whitespace and one optional sign: these are the non-decimal, non-empty
strings on which `atof` still performs a conversion (to an infinity or a
NaN rather than to `0.0`). -/
def specialForm (s : List Char) : Option Bool :=
  match s.dropWhile isSpaceC with
  | [] => none
  | c :: rest =>
    if c = '-' ∨ c = '+' then specialOf rest else specialOf (c :: rest)

/-! ## Loader (`loadBids` in the source)

```cpp
vector<Bid> loadBids(const string& csvPath) {
    cout << "Loading CSV file " << csvPath << endl;
    vector<Bid> bids;
    csv::Parser file = csv::Parser(csvPath);
    try {
        for (int i = 0; i < file.rowCount(); i++) {
            Bid bid;
            bid.bidId = file[i][1];
            bid.title = file[i][0];
            bid.fund = file[i][8];
            bid.amount = strToDouble(file[i][4], '$');
            bids.push_back(bid);
        }
    } catch (csv::Error &e) {
        cerr << "Error loading CSV: " << e.what() << endl;
    }
    return bids;
}
```
-/

/-- Modelled from the spec: the CSV parser collaborator (`CSVparser.hpp` is
not among the repository sources).  A parsed source presents a row count
and, for each index below it, either the row's column values or a parse
error that is raised (thrown) when the row is accessed, e.g. for a malformed
row structure.  Errors are modelled as their message strings. -/
structure CsvSource where
  rowCount : ℕ
  row : ℕ → Except (List Char) (List (List Char))

/-- Column access `row[j]`: out-of-range column access raises (modelled from
the spec's "malformed row structure" failure: a consumed column is missing). -/
def colAt (r : List (List Char)) (j : ℕ) : Except (List Char) (List Char) :=
  match r[j]? with
  | some v => Except.ok v
  | none => Except.error ('c' :: 'o' :: 'l' :: [])

/-- Body of one iteration of the load loop: read the row, then columns 1
(id), 0 (title), 8 (fund) and 4 (amount, stripped of `$`), in source order. -/
def parseBid (src : CsvSource) (i : ℕ) : Except (List Char) Bid := do
  let r ← src.row i
  let bidId ← colAt r 1
  let title ← colAt r 0
  let fund ← colAt r 8
  let amountS ← colAt r 4
  pure { bidId := bidId, title := title, fund := fund, amount := strToDouble amountS '$' }

/-- The `try { for ... } catch` of `loadBids`: on the first raised error the
loop stops, the error is reported (second component) and the bids
accumulated so far are returned. -/
def loadBidsLoop (src : CsvSource) : ℕ → ℕ → List Bid → List Bid × Option (List Char)
  | 0, _, acc => (acc, none)
  | fuel + 1, i, acc =>
    if i < src.rowCount then
      match parseBid src i with
      | Except.ok bid => loadBidsLoop src fuel (i + 1) (acc ++ [bid])
      | Except.error e => (acc, some e)
    else (acc, none)

/-- `loadBids`: run the loop from row 0 with an empty vector.  The second
component models the `cerr` report: `some e` iff a failure was caught. -/
def loadBids (src : CsvSource) : List Bid × Option (List Char) :=
  loadBidsLoop src src.rowCount 0 []

/-! ## Basic facts about the access and swap primitives -/

theorem toUSize_of_small {z : ℤ} (h0 : 0 ≤ z) (h : z < 2 ^ 64) : toUSize z = z.toNat := by
  unfold toUSize
  rw [Int.emod_eq_of_lt h0 h]

theorem getElem?_eq_some_bidAt {bids : List Bid} {k : ℕ} (h : k < bids.length) :
    bids[k]? = some (bidAt bids k) := by
  unfold bidAt
  rw [List.getElem?_eq_getElem h]
  rfl

theorem getElem_eq_bidAt {bids : List Bid} {k : ℕ} (h : k < bids.length) :
    bids[k] = bidAt bids k := by
  unfold bidAt
  rw [List.getElem?_eq_getElem h]
  rfl

theorem getElem?_some_lt {bids : List Bid} {k : ℕ} {b : Bid} (h : bids[k]? = some b) :
    k < bids.length ∧ b = bidAt bids k := by
  have hlt : k < bids.length := by
    by_contra hge
    rw [List.getElem?_eq_none (by omega)] at h
    exact Option.noConfusion h
  rw [getElem?_eq_some_bidAt hlt] at h
  exact ⟨hlt, (Option.some.inj h).symm⟩

theorem getI?_pos {bids : List Bid} {i : ℤ} (h0 : 0 ≤ i) (h : i < (bids.length : ℤ)) :
    getI? bids i = some (bidAt bids i.toNat) := by
  unfold getI?
  rw [if_pos h0, getElem?_eq_some_bidAt (by omega)]

theorem getI?_neg {bids : List Bid} {i : ℤ} (h0 : i < 0) : getI? bids i = none := by
  unfold getI?
  rw [if_neg (by omega)]

theorem getI?_some_bounds {bids : List Bid} {i : ℤ} {b : Bid}
    (h : getI? bids i = some b) :
    0 ≤ i ∧ i < (bids.length : ℤ) ∧ b = bidAt bids i.toNat := by
  by_cases h0 : 0 ≤ i
  · unfold getI? at h
    rw [if_pos h0] at h
    obtain ⟨hlt, rfl⟩ := getElem?_some_lt h
    exact ⟨h0, by omega, rfl⟩
  · rw [getI?_neg (by omega)] at h
    exact Option.noConfusion h

theorem swap?_total {bids : List Bid} {i j : ℕ} (hi : i < bids.length) (hj : j < bids.length) :
    swap? bids i j = some ((bids.set i (bidAt bids j)).set j (bidAt bids i)) := by
  unfold swap?
  rw [getElem?_eq_some_bidAt hi, getElem?_eq_some_bidAt hj]

theorem swap?_some {bids out : List Bid} {i j : ℕ} (h : swap? bids i j = some out) :
    i < bids.length ∧ j < bids.length ∧
      out = (bids.set i (bidAt bids j)).set j (bidAt bids i) := by
  unfold swap? at h
  split at h
  case h_1 a b ha hb =>
    obtain ⟨hi, rfl⟩ := getElem?_some_lt ha
    obtain ⟨hj, rfl⟩ := getElem?_some_lt hb
    exact ⟨hi, hj, (Option.some.inj h).symm⟩
  case h_2 => exact absurd h (by simp)

theorem swap?_length {bids out : List Bid} {i j : ℕ} (h : swap? bids i j = some out) :
    out.length = bids.length := by
  obtain ⟨-, -, rfl⟩ := swap?_some h
  simp

theorem swap?_getElem? {bids out : List Bid} {i j : ℕ} (h : swap? bids i j = some out)
    (k : ℕ) :
    out[k]? = if k = j then some (bidAt bids i)
      else if k = i then some (bidAt bids j) else bids[k]? := by
  obtain ⟨hi, hj, rfl⟩ := swap?_some h
  by_cases hkj : k = j
  · subst hkj
    rw [if_pos rfl, List.getElem?_set, if_pos rfl, if_pos (by simpa using hj)]
  · rw [if_neg hkj, List.getElem?_set, if_neg (fun hh => hkj hh.symm), List.getElem?_set]
    by_cases hki : k = i
    · rw [if_pos hki.symm, if_pos (by omega), if_pos hki]
    · rw [if_neg (fun hh => hki hh.symm), if_neg hki]

theorem swap?_bidAt {bids out : List Bid} {i j : ℕ} (h : swap? bids i j = some out)
    (k : ℕ) :
    bidAt out k = if k = j then bidAt bids i
      else if k = i then bidAt bids j else bidAt bids k := by
  have hg := swap?_getElem? h k
  by_cases hkj : k = j
  · rw [if_pos hkj] at hg ⊢
    show (out[k]?).getD default = _
    rw [hg]
    rfl
  · rw [if_neg hkj] at hg ⊢
    by_cases hki : k = i
    · rw [if_pos hki] at hg ⊢
      show (out[k]?).getD default = _
      rw [hg]
      rfl
    · rw [if_neg hki] at hg ⊢
      show (out[k]?).getD default = (bids[k]?).getD default
      rw [hg]

theorem swap?_perm {bids out : List Bid} {i j : ℕ} (h : swap? bids i j = some out) :
    out.Perm bids := by
  obtain ⟨hi, hj, rfl⟩ := swap?_some h
  rw [List.perm_iff_count]
  intro x
  have hj1 : j < (bids.set i (bidAt bids j)).length := by simpa using hj
  have e1 := List.count_set (bidAt bids i) x (bids.set i (bidAt bids j)) j hj1
  have e2 := List.count_set (bidAt bids j) x bids i hi
  have hset : (bids.set i (bidAt bids j))[j] = bidAt bids j := by
    rw [List.getElem_set]
    split
    · rfl
    · exact getElem_eq_bidAt hj
  have hgi : bids[i] = bidAt bids i := getElem_eq_bidAt hi
  rw [hset] at e1
  rw [hgi] at e2
  have hmemi : bidAt bids i ∈ bids := by rw [← hgi]; exact List.getElem_mem hi
  have hmemj : bidAt bids j ∈ bids := by
    rw [← getElem_eq_bidAt hj]; exact List.getElem_mem hj
  have hci : bidAt bids i = x → 1 ≤ bids.count x := by
    intro hh; rw [← hh]; exact List.count_pos_iff.mpr hmemi
  have hcj : bidAt bids j = x → 1 ≤ bids.count x := by
    intro hh; rw [← hh]; exact List.count_pos_iff.mpr hmemj
  simp only [beq_iff_eq] at e1 e2
  by_cases hA : bidAt bids i = x <;> by_cases hB : bidAt bids j = x
  · have h1 := hci hA
    rw [if_pos hA, if_pos hB] at e1 e2
    omega
  · have h1 := hci hA
    rw [if_pos hA, if_neg hB] at e1 e2
    omega
  · have h1 := hcj hB
    rw [if_neg hA, if_pos hB] at e1 e2
    omega
  · rw [if_neg hA, if_neg hB] at e1 e2
    omega

theorem swapI?_some {bids out : List Bid} {i j : ℤ} (h : swapI? bids i j = some out) :
    0 ≤ i ∧ 0 ≤ j ∧ i < (bids.length : ℤ) ∧ j < (bids.length : ℤ) ∧
      out.length = bids.length ∧ out.Perm bids ∧
      (∀ k : ℤ, getI? out k =
        if k = j then some (bidAt bids i.toNat)
        else if k = i then some (bidAt bids j.toNat) else getI? bids k) := by
  unfold swapI? at h
  split at h
  case isFalse => exact absurd h (by simp)
  case isTrue h0 =>
    obtain ⟨h0i, h0j⟩ := h0
    obtain ⟨hi, hj, -⟩ := swap?_some h
    have hlen := swap?_length h
    refine ⟨h0i, h0j, by omega, by omega, hlen, swap?_perm h, ?_⟩
    intro k
    by_cases h0k : 0 ≤ k
    · have hg : getI? out k = out[k.toNat]? := by
        unfold getI?
        rw [if_pos h0k]
      rw [hg, swap?_getElem? h k.toNat]
      by_cases hkj : k = j
      · rw [if_pos (by omega), if_pos hkj]
      · rw [if_neg (by omega), if_neg hkj]
        by_cases hki : k = i
        · rw [if_pos (by omega), if_pos hki]
        · rw [if_neg (by omega), if_neg hki]
          unfold getI?
          rw [if_pos h0k]
    · rw [getI?_neg (by omega), if_neg (by omega), if_neg (by omega),
        getI?_neg (by omega)]

theorem swapI?_elemInSeg {bids out : List Bid} {i j B E : ℤ}
    (h : swapI? bids i j = some out)
    (hiB : B ≤ i) (hiE : i ≤ E) (hjB : B ≤ j) (hjE : j ≤ E) :
    ∀ x, elemInSeg out B E x → elemInSeg bids B E x := by
  obtain ⟨h0i, h0j, hilt, hjlt, -, -, hchar⟩ := swapI?_some h
  rintro x ⟨k, hBk, hkE, hk⟩
  rw [hchar k] at hk
  by_cases hkj : k = j
  · rw [if_pos hkj] at hk
    refine ⟨i, hiB, hiE, ?_⟩
    rw [getI?_pos h0i hilt, hk]
  · rw [if_neg hkj] at hk
    by_cases hki : k = i
    · rw [if_pos hki] at hk
      refine ⟨j, hjB, hjE, ?_⟩
      rw [getI?_pos h0j hjlt, hk]
    · rw [if_neg hki] at hk
      exact ⟨k, hBk, hkE, hk⟩

/-! ## Correctness of the selection-sort inner scan -/

theorem minIndexFrom_spec (size : ℤ) (bids : List Bid)
    (hsz : toUSize size = bids.length) :
    ∀ (fuel minIndex j : ℕ),
      bids.length ≤ j + fuel →
      minIndex < j → j ≤ bids.length →
      ∃ m, minIndexFrom size bids fuel minIndex j = some m ∧
        m < bids.length ∧
        (m = minIndex ∨ j ≤ m) ∧
        (bidAt bids m).title ≤ (bidAt bids minIndex).title ∧
        (∀ k, j ≤ k → k < bids.length → (bidAt bids m).title ≤ (bidAt bids k).title) ∧
        (∀ k, j ≤ k → k < m → (bidAt bids m).title < (bidAt bids k).title) ∧
        ((bidAt bids m).title < (bidAt bids minIndex).title ∨ m = minIndex) := by
  intro fuel
  induction fuel with
  | zero =>
    intro minIndex j hfuel hmj hjn
    have hj : j = bids.length := by omega
    refine ⟨minIndex, ?_, by omega, Or.inl rfl, le_refl _, ?_, ?_, Or.inr rfl⟩
    · unfold minIndexFrom
      rw [if_neg (by omega)]
    · intro k hk1 hk2
      omega
    · intro k hk1 hk2
      omega
  | succ fuel ih =>
    intro minIndex j hfuel hmj hjn
    by_cases hguard : j < bids.length
    · have hbj : bids[j]? = some (bidAt bids j) := getElem?_eq_some_bidAt hguard
      have hbm : bids[minIndex]? = some (bidAt bids minIndex) :=
        getElem?_eq_some_bidAt (by omega)
      have hstep : minIndexFrom size bids (fuel + 1) minIndex j =
          minIndexFrom size bids fuel
            (if (bidAt bids j).title < (bidAt bids minIndex).title then j else minIndex)
            (j + 1) := by
        simp only [minIndexFrom]
        rw [if_pos (by omega), hbj, hbm]
      by_cases hcmp : (bidAt bids j).title < (bidAt bids minIndex).title
      · rw [if_pos hcmp] at hstep
        obtain ⟨m, hm, hmlt, hmloc, hmle, hmall, hmfirst, hmstrict⟩ :=
          ih j (j + 1) (by omega) (by omega) (by omega)
        refine ⟨m, by rw [hstep, hm], hmlt, ?_, ?_, ?_, ?_, ?_⟩
        · right
          omega
        · exact le_trans hmle (le_of_lt hcmp)
        · intro k hk1 hk2
          rcases Nat.eq_or_lt_of_le hk1 with hk | hk
          · rw [← hk]
            exact hmle
          · exact hmall k (by omega) hk2
        · intro k hk1 hk3
          rcases Nat.eq_or_lt_of_le hk1 with hk | hk
          · rw [← hk]
            rcases hmstrict with hs | hs
            · exact hs
            · rw [hs] at hk3
              omega
          · exact hmfirst k (by omega) hk3
        · left
          exact lt_of_le_of_lt hmle hcmp
      · rw [if_neg hcmp] at hstep
        obtain ⟨m, hm, hmlt, hmloc, hmle, hmall, hmfirst, hmstrict⟩ :=
          ih minIndex (j + 1) (by omega) (by omega) (by omega)
        refine ⟨m, by rw [hstep, hm], hmlt, ?_, hmle, ?_, ?_, hmstrict⟩
        · rcases hmloc with hl | hl
          · exact Or.inl hl
          · right
            omega
        · intro k hk1 hk2
          rcases Nat.eq_or_lt_of_le hk1 with hk | hk
          · rw [← hk]
            exact le_trans hmle (not_lt.mp hcmp)
          · exact hmall k (by omega) hk2
        · intro k hk1 hk3
          rcases Nat.eq_or_lt_of_le hk1 with hk | hk
          · rw [← hk]
            rcases hmstrict with hs | hs
            · exact lt_of_lt_of_le hs (not_lt.mp hcmp)
            · rw [hs] at hk3
              omega
          · exact hmfirst k (by omega) hk3
    · have hj : j = bids.length := by omega
      refine ⟨minIndex, ?_, by omega, Or.inl rfl, le_refl _, ?_, ?_, Or.inr rfl⟩
      · unfold minIndexFrom
        rw [if_neg (by omega)]
      · intro k hk1 hk2
        omega
      · intro k hk1 hk2
        omega

/-! ## Correctness of `selectionSort` -/

theorem sortedByTitle_iff_bidAt {bids : List Bid} :
    sortedByTitle bids ↔ ∀ i j, i < j → j < bids.length →
      (bidAt bids i).title ≤ (bidAt bids j).title := by
  unfold sortedByTitle
  rw [List.pairwise_iff_getElem]
  constructor
  · intro h i j hij hj
    have := h i j (by omega) hj hij
    rwa [getElem_eq_bidAt (by omega), getElem_eq_bidAt hj] at this
  · intro h i j hi hj hij
    rw [getElem_eq_bidAt hi, getElem_eq_bidAt hj]
    exact h i j hij hj

theorem strictSortedByTitle_iff_bidAt {bids : List Bid} :
    strictSortedByTitle bids ↔ ∀ i j, i < j → j < bids.length →
      (bidAt bids i).title < (bidAt bids j).title := by
  unfold strictSortedByTitle
  rw [List.pairwise_iff_getElem]
  constructor
  · intro h i j hij hj
    have := h i j (by omega) hj hij
    rwa [getElem_eq_bidAt (by omega), getElem_eq_bidAt hj] at this
  · intro h i j hi hj hij
    rw [getElem_eq_bidAt hi, getElem_eq_bidAt hj]
    exact h i j hij hj

theorem selSortLoop_spec (n : ℕ) (hn : n < 2 ^ 31) (hne : 1 ≤ n) :
    ∀ (fuel : ℕ) (bids : List Bid) (pos : ℕ),
      bids.length = n →
      n - 1 ≤ pos + fuel →
      pos ≤ n - 1 →
      (∀ i k, i < pos → i < k → k < n → (bidAt bids i).title ≤ (bidAt bids k).title) →
      ∃ out, selSortLoop (n : ℤ) fuel bids pos = some out ∧
        out.length = n ∧ out.Perm bids ∧ sortedByTitle out := by
  have hguard_eq : toUSize ((n : ℤ) - 1) = n - 1 := by
    rw [toUSize_of_small (by omega) (by omega)]
    omega
  have hsz : toUSize (n : ℤ) = n := by
    rw [toUSize_of_small (by omega) (by omega)]
    omega
  intro fuel
  induction fuel with
  | zero =>
    intro bids pos hlen hfuel hpos hinv
    refine ⟨bids, ?_, hlen, List.Perm.refl _, ?_⟩
    · unfold selSortLoop
      rw [if_neg (by rw [hguard_eq]; omega)]
    · rw [sortedByTitle_iff_bidAt]
      intro i j hij hj
      exact hinv i j (by omega) hij (by omega)
  | succ fuel ih =>
    intro bids pos hlen hfuel hpos hinv
    by_cases hg : pos < n - 1
    · obtain ⟨m, hm, hmlt, hmloc, hmle, hmall, hmfirst, hmstrict⟩ :=
        minIndexFrom_spec (n : ℤ) bids (by rw [hsz, hlen]) (toUSize (n : ℤ))
          pos (pos + 1) (by rw [hlen, hsz]; omega) (by omega) (by omega)
      have hposlt : pos < bids.length := by omega
      have hswap := swap?_total hposlt hmlt
      set bids2 := (bids.set pos (bidAt bids m)).set m (bidAt bids pos) with hbids2
      have hchar := swap?_bidAt hswap
      have hlen2 : bids2.length = n := by rw [swap?_length hswap, hlen]
      have hperm2 : bids2.Perm bids := swap?_perm hswap
      have hposm : pos ≤ m := by rcases hmloc with h | h <;> omega
      have hminAll : ∀ k, pos ≤ k → k < n →
          (bidAt bids m).title ≤ (bidAt bids k).title := by
        intro k hk1 hk2
        rcases Nat.eq_or_lt_of_le hk1 with hk | hk
        · rw [← hk]
          exact hmle
        · exact hmall k (by omega) (by omega)
      have hinv2 : ∀ i k, i < pos + 1 → i < k → k < n →
          (bidAt bids2 i).title ≤ (bidAt bids2 k).title := by
        intro i k hi hik hk
        by_cases hip : i < pos
        · have hbi : bidAt bids2 i = bidAt bids i := by
            rw [hchar i, if_neg (by omega), if_neg (by omega)]
          rw [hbi, hchar k]
          by_cases hkm : k = m
          · rw [if_pos hkm]
            exact hinv i pos hip (by omega) (by omega)
          · rw [if_neg hkm]
            by_cases hkp : k = pos
            · rw [if_pos hkp]
              exact hinv i m hip (by omega) (by omega)
            · rw [if_neg hkp]
              exact hinv i k hip hik hk
        · have hi' : i = pos := by omega
          subst hi'
          have hbi : bidAt bids2 i = bidAt bids m := by
            rw [hchar i]
            by_cases hpm : i = m
            · rw [if_pos hpm, hpm]
            · rw [if_neg hpm, if_pos rfl]
          rw [hbi, hchar k]
          by_cases hkm : k = m
          · rw [if_pos hkm]
            exact hminAll i (le_refl _) (by omega)
          · rw [if_neg hkm]
            by_cases hkp : k = i
            · omega
            · rw [if_neg hkp]
              exact hminAll k (by omega) hk
      obtain ⟨out, hout, houtlen, houtperm, houtsorted⟩ :=
        ih bids2 (pos + 1) hlen2 (by omega) (by omega) hinv2
      refine ⟨out, ?_, houtlen, houtperm.trans hperm2, houtsorted⟩
      have hrun : selSortLoop (n : ℤ) (fuel + 1) bids pos =
          selSortLoop (n : ℤ) fuel bids2 (pos + 1) := by
        simp only [selSortLoop]
        rw [if_pos (by rw [hguard_eq]; omega), hm]
        show (match swap? bids pos m with
          | none => none
          | some bids' => selSortLoop (n : ℤ) fuel bids' (pos + 1)) = _
        rw [hswap]
      rw [hrun, hout]
    · refine ⟨bids, ?_, hlen, List.Perm.refl _, ?_⟩
      · simp only [selSortLoop]
        rw [if_neg (by rw [hguard_eq]; omega)]
      · rw [sortedByTitle_iff_bidAt]
        intro i j hij hj
        exact hinv i j (by omega) hij (by omega)

theorem selectionSort_spec {bids : List Bid} (hne : bids ≠ [])
    (hlen : bids.length < 2 ^ 31) :
    ∃ out, selectionSort bids = some out ∧ out.length = bids.length ∧
      out.Perm bids ∧ sortedByTitle out := by
  have hn1 : 1 ≤ bids.length := List.length_pos.mpr hne
  have hguard_eq : toUSize ((bids.length : ℤ) - 1) = bids.length - 1 := by
    rw [toUSize_of_small (by omega) (by omega)]
    omega
  exact selSortLoop_spec bids.length hlen hn1 (toUSize ((bids.length : ℤ) - 1)) bids 0
    rfl (by rw [hguard_eq]; omega) (by omega)
    (fun i k hi _ _ => absurd hi (by omega))

/-! ## `selectionSort` leaves a sorted vector unchanged -/

theorem set_bidAt_self {bids : List Bid} {i : ℕ} (h : i < bids.length) :
    bids.set i (bidAt bids i) = bids := by
  rw [← getElem_eq_bidAt h]
  apply List.ext_getElem?
  intro j
  rw [List.getElem?_set]
  split
  · rename_i h1
    subst h1
    rw [List.getElem?_eq_getElem h]
  · rfl

theorem swap?_self {bids : List Bid} {i : ℕ} (h : i < bids.length) :
    swap? bids i i = some bids := by
  rw [swap?_total h h, List.set_set, set_bidAt_self h]

theorem selSortLoop_id (n : ℕ) (hn : n < 2 ^ 31) (hne : 1 ≤ n) :
    ∀ (fuel : ℕ) (bids : List Bid) (pos : ℕ),
      bids.length = n → n - 1 ≤ pos + fuel → sortedByTitle bids →
      selSortLoop (n : ℤ) fuel bids pos = some bids := by
  have hguard_eq : toUSize ((n : ℤ) - 1) = n - 1 := by
    rw [toUSize_of_small (by omega) (by omega)]
    omega
  have hsz : toUSize (n : ℤ) = n := by
    rw [toUSize_of_small (by omega) (by omega)]
    omega
  intro fuel
  induction fuel with
  | zero =>
    intro bids pos hlen hfuel hsorted
    unfold selSortLoop
    rw [if_neg (by rw [hguard_eq]; omega)]
  | succ fuel ih =>
    intro bids pos hlen hfuel hsorted
    by_cases hg : pos < n - 1
    · obtain ⟨m, hm, hmlt, hmloc, hmle, hmall, hmfirst, hmstrict⟩ :=
        minIndexFrom_spec (n : ℤ) bids (by rw [hsz, hlen]) (toUSize (n : ℤ))
          pos (pos + 1) (by rw [hlen, hsz]; omega) (by omega) (by omega)
      have hsort_idx := sortedByTitle_iff_bidAt.mp hsorted
      have hmp : m = pos := by
        rcases hmstrict with hs | hs
        · rcases hmloc with h1 | h1
          · exact h1
          · have := hsort_idx pos m (by omega) (by omega)
            exact absurd hs (not_lt.mpr this)
        · exact hs
      rw [hmp] at hm
      have hrun : selSortLoop (n : ℤ) (fuel + 1) bids pos =
          selSortLoop (n : ℤ) fuel bids (pos + 1) := by
        simp only [selSortLoop]
        rw [if_pos (by rw [hguard_eq]; omega), hm]
        show (match swap? bids pos pos with
          | none => none
          | some bids' => selSortLoop (n : ℤ) fuel bids' (pos + 1)) = _
        rw [swap?_self (by omega)]
      rw [hrun]
      exact ih bids (pos + 1) hlen (by omega) hsorted
    · simp only [selSortLoop]
      rw [if_neg (by rw [hguard_eq]; omega)]

theorem selectionSort_sorted_id {bids : List Bid} (hne : bids ≠ [])
    (hlen : bids.length < 2 ^ 31) (hs : sortedByTitle bids) :
    selectionSort bids = some bids := by
  have hn1 : 1 ≤ bids.length := List.length_pos.mpr hne
  exact selSortLoop_id bids.length hlen hn1 _ bids 0 rfl
    (by rw [toUSize_of_small (by omega) (by omega)]; omega) hs

/-! ## The partition scans -/

theorem scanLow_succ (bids : List Bid) (pivot : List Char) (fuel : ℕ) (low : ℤ) :
    scanLow bids pivot (fuel + 1) low =
      match getI? bids low with
      | none => none
      | some b =>
        if b.title < pivot then scanLow bids pivot fuel (low + 1) else some low := rfl

theorem scanHigh_succ (bids : List Bid) (pivot : List Char) (fuel : ℕ) (high : ℤ) :
    scanHigh bids pivot (fuel + 1) high =
      match getI? bids high with
      | none => none
      | some b =>
        if pivot < b.title then scanHigh bids pivot fuel (high - 1) else some high := rfl

theorem scanLow_some {bids : List Bid} {pivot : List Char} :
    ∀ {fuel : ℕ} {low low' : ℤ}, scanLow bids pivot fuel low = some low' →
      0 ≤ low ∧ low ≤ low' ∧ low' < (bids.length : ℤ) ∧
      ¬ (bidAt bids low'.toNat).title < pivot ∧
      (∀ k : ℤ, low ≤ k → k < low' → (bidAt bids k.toNat).title < pivot) := by
  intro fuel
  induction fuel with
  | zero =>
    intro low low' h
    exact absurd h (by simp [scanLow])
  | succ fuel ih =>
    intro low low' h
    rw [scanLow_succ] at h
    split at h
    · exact absurd h (by simp)
    · rename_i b hget
      obtain ⟨h0, hlt, hb⟩ := getI?_some_bounds hget
      subst hb
      split at h
      · rename_i hcmp
        obtain ⟨h0', hle, hlt', hstop, hscan⟩ := ih h
        refine ⟨h0, by omega, hlt', hstop, ?_⟩
        intro k hk1 hk2
        rcases eq_or_lt_of_le hk1 with hk | hk
        · rw [← hk]
          exact hcmp
        · exact hscan k (by omega) hk2
      · rename_i hcmp
        have heq := Option.some.inj h
        subst heq
        exact ⟨h0, le_refl _, hlt, hcmp, fun k hk1 hk2 => absurd hk2 (by omega)⟩

theorem scanLow_total {bids : List Bid} {pivot : List Char} :
    ∀ (fuel : ℕ) (low i : ℤ), 0 ≤ low → low ≤ i → i < (bids.length : ℤ) →
      ¬ (bidAt bids i.toNat).title < pivot → (i - low).toNat < fuel →
      ∃ low', scanLow bids pivot fuel low = some low' := by
  intro fuel
  induction fuel with
  | zero =>
    intro low i _ _ _ _ hf
    exact absurd hf (by omega)
  | succ fuel ih =>
    intro low i h0 hli hi hstop hf
    have hget : getI? bids low = some (bidAt bids low.toNat) := getI?_pos h0 (by omega)
    by_cases hcmp : (bidAt bids low.toNat).title < pivot
    · have hne : low ≠ i := by
        intro hh
        rw [hh] at hcmp
        exact hstop hcmp
      obtain ⟨low', hlow'⟩ := ih (low + 1) i (by omega) (by omega) hi hstop (by omega)
      refine ⟨low', ?_⟩
      rw [scanLow_succ, hget]
      show (if (bidAt bids low.toNat).title < pivot
        then scanLow bids pivot fuel (low + 1) else some low) = some low'
      rw [if_pos hcmp, hlow']
    · refine ⟨low, ?_⟩
      rw [scanLow_succ, hget]
      show (if (bidAt bids low.toNat).title < pivot
        then scanLow bids pivot fuel (low + 1) else some low) = some low
      rw [if_neg hcmp]

theorem scanHigh_some {bids : List Bid} {pivot : List Char} :
    ∀ {fuel : ℕ} {high high' : ℤ}, scanHigh bids pivot fuel high = some high' →
      0 ≤ high' ∧ high' ≤ high ∧ high < (bids.length : ℤ) ∧
      ¬ pivot < (bidAt bids high'.toNat).title ∧
      (∀ k : ℤ, high' < k → k ≤ high → pivot < (bidAt bids k.toNat).title) := by
  intro fuel
  induction fuel with
  | zero =>
    intro high high' h
    exact absurd h (by simp [scanHigh])
  | succ fuel ih =>
    intro high high' h
    rw [scanHigh_succ] at h
    split at h
    · exact absurd h (by simp)
    · rename_i b hget
      obtain ⟨h0, hlt, hb⟩ := getI?_some_bounds hget
      subst hb
      split at h
      · rename_i hcmp
        obtain ⟨h0', hle, hlt', hstop, hscan⟩ := ih h
        refine ⟨h0', by omega, hlt, hstop, ?_⟩
        intro k hk1 hk2
        rcases eq_or_lt_of_le hk2 with hk | hk
        · rw [hk]
          exact hcmp
        · exact hscan k hk1 (by omega)
      · rename_i hcmp
        have heq := Option.some.inj h
        subst heq
        exact ⟨h0, le_refl _, hlt, hcmp, fun k hk1 hk2 => absurd hk1 (by omega)⟩

theorem scanHigh_total {bids : List Bid} {pivot : List Char} :
    ∀ (fuel : ℕ) (high j : ℤ), 0 ≤ j → j ≤ high → high < (bids.length : ℤ) →
      ¬ pivot < (bidAt bids j.toNat).title → (high - j).toNat < fuel →
      ∃ high', scanHigh bids pivot fuel high = some high' := by
  intro fuel
  induction fuel with
  | zero =>
    intro high j _ _ _ _ hf
    exact absurd hf (by omega)
  | succ fuel ih =>
    intro high j h0 hjh hi hstop hf
    have hget : getI? bids high = some (bidAt bids high.toNat) := getI?_pos (by omega) hi
    by_cases hcmp : pivot < (bidAt bids high.toNat).title
    · have hne : high ≠ j := by
        intro hh
        rw [hh] at hcmp
        exact hstop hcmp
      obtain ⟨high', hhigh'⟩ := ih (high - 1) j h0 (by omega) (by omega) hstop (by omega)
      refine ⟨high', ?_⟩
      rw [scanHigh_succ, hget]
      show (if pivot < (bidAt bids high.toNat).title
        then scanHigh bids pivot fuel (high - 1) else some high) = some high'
      rw [if_pos hcmp, hhigh']
    · refine ⟨high, ?_⟩
      rw [scanHigh_succ, hget]
      show (if pivot < (bidAt bids high.toNat).title
        then scanHigh bids pivot fuel (high - 1) else some high) = some high
      rw [if_neg hcmp]

theorem swapI?_total {bids : List Bid} {i j : ℤ} (h0i : 0 ≤ i) (h0j : 0 ≤ j)
    (hi : i < (bids.length : ℤ)) (hj : j < (bids.length : ℤ)) :
    swapI? bids i j =
      some ((bids.set i.toNat (bidAt bids j.toNat)).set j.toNat (bidAt bids i.toNat)) := by
  unfold swapI?
  rw [if_pos ⟨h0i, h0j⟩, swap?_total (by omega) (by omega)]

theorem partLoop_step {bids : List Bid} {pivot : List Char} {fuel : ℕ}
    {low high low' high' : ℤ}
    (hl : scanLow bids pivot (bids.length + 1) low = some low')
    (hh : scanHigh bids pivot (bids.length + 1) high = some high') :
    partLoop pivot (fuel + 1) bids low high =
      if low' ≥ high' then some (bids, high')
      else
        match swapI? bids low' high' with
        | none => none
        | some bids' => partLoop pivot fuel bids' (low' + 1) (high' - 1) := by
  show (match scanLow bids pivot (bids.length + 1) low with
    | none => none
    | some low' =>
      match scanHigh bids pivot (bids.length + 1) high with
      | none => none
      | some high' =>
        if low' ≥ high' then some (bids, high')
        else
          match swapI? bids low' high' with
          | none => none
          | some bids' => partLoop pivot fuel bids' (low' + 1) (high' - 1)) = _
  rw [hl, hh]

/-! ## Correctness of the Hoare partition loop -/

theorem partLoop_fuel_step {low high low' high' : ℤ} {fuel : ℕ}
    (hf : (high - low).toNat < fuel + 1) (h1 : low ≤ low') (h2 : high' ≤ high)
    (h3 : low' < high') : (high' - 1 - (low' + 1)).toNat < fuel := by
  omega

theorem partLoop_spec (pivot : List Char) (B E : ℤ) (n : ℕ)
    (hB : 0 ≤ B) (hEn : E < (n : ℤ)) :
    ∀ (fuel : ℕ) (bids : List Bid) (low high : ℤ),
      bids.length = n →
      (high - low).toNat < fuel →
      B ≤ low → high ≤ E →
      (∃ i : ℤ, low ≤ i ∧ i < (n : ℤ) ∧ ¬ (bidAt bids i.toNat).title < pivot) →
      (∃ j : ℤ, B ≤ j ∧ j ≤ high ∧ ¬ pivot < (bidAt bids j.toNat).title) →
      (high < E ∨ ∃ i : ℤ, low ≤ i ∧ i < E ∧ ¬ (bidAt bids i.toNat).title < pivot) →
      (∀ k : ℤ, B ≤ k → k < low → (bidAt bids k.toNat).title ≤ pivot) →
      (∀ k : ℤ, high < k → k ≤ E → pivot ≤ (bidAt bids k.toNat).title) →
      ∃ out h,
        partLoop pivot fuel bids low high = some (out, h) ∧
        out.length = n ∧ out.Perm bids ∧
        (∀ k : ℤ, k < B ∨ E < k → getI? out k = getI? bids k) ∧
        B ≤ h ∧ h < E ∧
        (∀ k : ℤ, B ≤ k → k ≤ h → (bidAt out k.toNat).title ≤ pivot) ∧
        (∀ k : ℤ, h < k → k ≤ E → pivot ≤ (bidAt out k.toNat).title) ∧
        (∀ x, elemInSeg out B E x → elemInSeg bids B E x) := by
  intro fuel
  induction fuel with
  | zero =>
    intro bids low high hlen hf
    exact absurd hf (by omega)
  | succ fuel ih =>
    intro bids low high hlen hf hBlow hhighE hE1 hE2 hD hL hH
    obtain ⟨iw, hiw1, hiw2, hiw3⟩ := hE1
    obtain ⟨jw, hjw1, hjw2, hjw3⟩ := hE2
    have h0low : 0 ≤ low := by omega
    obtain ⟨low', hlowrun⟩ := scanLow_total (bids.length + 1) low iw h0low hiw1
      (by omega) hiw3 (by omega)
    obtain ⟨-, hlle, hllt, hlstop, hlscan⟩ := scanLow_some hlowrun
    obtain ⟨high', hhighrun⟩ := scanHigh_total (bids.length + 1) high jw (by omega) hjw2
      (by omega) hjw3 (by omega)
    obtain ⟨h0high', hhle, -, hhstop, hhscan⟩ := scanHigh_some hhighrun
    have hjwle : jw ≤ high' := by
      by_contra hlt
      exact hjw3 (hhscan jw (by omega) hjw2)
    have hlwle : low' ≤ iw := by
      by_contra hlt
      exact hiw3 (hlscan iw hiw1 (by omega))
    by_cases hcross : low' ≥ high'
    · have hret : partLoop pivot (fuel + 1) bids low high = some (bids, high') := by
        rw [partLoop_step hlowrun hhighrun, if_pos hcross]
      have hhE : high' < E := by
        rcases hD with hD | ⟨iw2, hiw21, hiw22, hiw23⟩
        · omega
        · have : low' ≤ iw2 := by
            by_contra hlt
            exact hiw23 (hlscan iw2 hiw21 (by omega))
          omega
      refine ⟨bids, high', hret, hlen, List.Perm.refl _, fun k _ => rfl, by omega, hhE,
        ?_, ?_, fun x hx => hx⟩
      · intro k hk1 hk2
        by_cases hkh : k = high'
        · rw [hkh]
          exact not_lt.mp hhstop
        · by_cases hkl : k < low
          · exact hL k hk1 hkl
          · exact le_of_lt (hlscan k (by omega) (by omega))
      · intro k hk1 hk2
        by_cases hkh : k ≤ high
        · exact le_of_lt (hhscan k (by omega) hkh)
        · exact hH k (by omega) hk2
    · push_neg at hcross
      have h0l' : 0 ≤ low' := by omega
      obtain ⟨bids2, hswaprun⟩ : ∃ bids2, swapI? bids low' high' = some bids2 :=
        ⟨_, swapI?_total h0l' (by omega) (by omega)
          (show high' < (bids.length : ℤ) by omega)⟩
      obtain ⟨-, -, -, -, hlen2, hperm2, hchar⟩ := swapI?_some hswaprun
      have hval_high : bidAt bids2 high'.toNat = bidAt bids low'.toNat := by
        have hc := hchar high'
        rw [if_pos rfl] at hc
        obtain ⟨-, -, hb⟩ := getI?_some_bounds hc
        exact hb.symm
      have hval_low : bidAt bids2 low'.toNat = bidAt bids high'.toNat := by
        have hc := hchar low'
        rw [if_neg (by omega), if_pos rfl] at hc
        obtain ⟨-, -, hb⟩ := getI?_some_bounds hc
        exact hb.symm
      have hval_other : ∀ k : ℤ, k ≠ low' → k ≠ high' → 0 ≤ k → k < (n : ℤ) →
          bidAt bids2 k.toNat = bidAt bids k.toNat := by
        intro k hk1 hk2 hk3 hk4
        have hc := hchar k
        rw [if_neg hk2, if_neg hk1, getI?_pos hk3 (by omega), getI?_pos hk3 (by omega)] at hc
        exact Option.some.inj hc
      have hL2 : ∀ k : ℤ, B ≤ k → k < low' + 1 → (bidAt bids2 k.toNat).title ≤ pivot := by
        intro k hk1 hk2
        by_cases hkl : k = low'
        · rw [hkl, hval_low]
          exact not_lt.mp hhstop
        · rw [hval_other k hkl (by omega) (by omega) (by omega)]
          by_cases hklow : k < low
          · exact hL k hk1 hklow
          · exact le_of_lt (hlscan k (by omega) (by omega))
      have hH2 : ∀ k : ℤ, high' - 1 < k → k ≤ E → pivot ≤ (bidAt bids2 k.toNat).title := by
        intro k hk1 hk2
        by_cases hkh : k = high'
        · rw [hkh, hval_high]
          exact not_lt.mp hlstop
        · rw [hval_other k (by omega) hkh (by omega) (by omega)]
          by_cases hkhigh : k ≤ high
          · exact le_of_lt (hhscan k (by omega) hkhigh)
          · exact hH k (by omega) hk2
      have hlen2n : bids2.length = n := by rw [hlen2, hlen]
      have hfuel2 : (high' - 1 - (low' + 1)).toNat < fuel :=
        partLoop_fuel_step hf hlle hhle hcross
      have hBlow2 : B ≤ low' + 1 := by omega
      have hhighE2 : high' - 1 ≤ E := by omega
      have hE1b : ∃ i : ℤ, low' + 1 ≤ i ∧ i < (n : ℤ) ∧
          ¬ (bidAt bids2 i.toNat).title < pivot :=
        ⟨high', by omega, by omega, by rw [hval_high]; exact hlstop⟩
      have hE2b : ∃ j : ℤ, B ≤ j ∧ j ≤ high' - 1 ∧
          ¬ pivot < (bidAt bids2 j.toNat).title :=
        ⟨low', by omega, by omega, by rw [hval_low]; exact hhstop⟩
      obtain ⟨out, h, hrun, hlen3, hperm3, hagree3, hBh, hhE, hlow3, hhigh3, hmem3⟩ :=
        ih bids2 (low' + 1) (high' - 1) hlen2n hfuel2 hBlow2 hhighE2 hE1b hE2b
          (Or.inl (by omega)) hL2 hH2
      refine ⟨out, h, ?_, hlen3, hperm3.trans hperm2, ?_, hBh,
        hhE, hlow3, hhigh3, ?_⟩
      · rw [partLoop_step hlowrun hhighrun, if_neg (by omega)]
        show (match swapI? bids low' high' with
          | none => none
          | some bids' => partLoop pivot fuel bids' (low' + 1) (high' - 1)) = some (out, h)
        rw [hswaprun]
        exact hrun
      · intro k hk
        rw [hagree3 k hk]
        have hc := hchar k
        rw [if_neg (by omega), if_neg (by omega)] at hc
        exact hc
      · intro x hx
        exact swapI?_elemInSeg hswaprun (by omega) (by omega) (by omega) (by omega) x
          (hmem3 x hx)

/-! ## Correctness of `partition` and `quickSort` -/

theorem tdiv_mid_bounds {B E : ℤ} (hB : 0 ≤ B) (hBE : B < E) :
    B ≤ (B + E).tdiv 2 ∧ (B + E).tdiv 2 < E := by
  rw [Int.tdiv_eq_ediv (by omega) (by omega)]
  omega

theorem partition_eq {bids : List Bid} {B E : ℤ} {pb : Bid}
    (hget : getI? bids ((B + E).tdiv 2) = some pb) :
    partition bids B E = partLoop pb.title ((E - B).toNat + 1) bids B E := by
  unfold partition
  rw [hget]

theorem partition_spec {bids : List Bid} {B E : ℤ}
    (hB : 0 ≤ B) (hBE : B < E) (hE : E < (bids.length : ℤ)) :
    ∃ out h,
      partition bids B E = some (out, h) ∧
      out.length = bids.length ∧ out.Perm bids ∧
      (∀ k : ℤ, k < B ∨ E < k → getI? out k = getI? bids k) ∧
      B ≤ h ∧ h < E ∧
      (∀ k : ℤ, B ≤ k → k ≤ h →
        (bidAt out k.toNat).title ≤ (bidAt bids ((B + E).tdiv 2).toNat).title) ∧
      (∀ k : ℤ, h < k → k ≤ E →
        (bidAt bids ((B + E).tdiv 2).toNat).title ≤ (bidAt out k.toNat).title) ∧
      (∀ x, elemInSeg out B E x → elemInSeg bids B E x) := by
  obtain ⟨hm1, hm2⟩ := tdiv_mid_bounds hB hBE
  have hmid0 : 0 ≤ (B + E).tdiv 2 := by omega
  have hmidlt : (B + E).tdiv 2 < (bids.length : ℤ) := by omega
  have hget : getI? bids ((B + E).tdiv 2) = some (bidAt bids ((B + E).tdiv 2).toNat) :=
    getI?_pos hmid0 hmidlt
  obtain ⟨out, h, hrun, hlen, hperm, hagree, hBh, hhE, hlow, hhigh, hmem⟩ :=
    partLoop_spec (bidAt bids ((B + E).tdiv 2).toNat).title B E bids.length hB hE
      ((E - B).toNat + 1) bids B E rfl (by omega) (le_refl _) (le_refl _)
      ⟨(B + E).tdiv 2, hm1, hmidlt, fun hh => absurd hh (lt_irrefl _)⟩
      ⟨(B + E).tdiv 2, hm1, by omega, fun hh => absurd hh (lt_irrefl _)⟩
      (Or.inr ⟨(B + E).tdiv 2, hm1, hm2, fun hh => absurd hh (lt_irrefl _)⟩)
      (fun k hk1 hk2 => absurd hk2 (by omega))
      (fun k hk1 hk2 => absurd hk1 (by omega))
  exact ⟨out, h, by rw [partition_eq hget]; exact hrun, hlen, hperm, hagree, hBh, hhE,
    hlow, hhigh, hmem⟩

theorem quickSort_succ (fuel : ℕ) (bids : List Bid) (begin_ endI : ℤ) :
    quickSort (fuel + 1) bids begin_ endI =
      if begin_ < endI then
        match partition bids begin_ endI with
        | none => none
        | some (bids', mid) =>
          match quickSort fuel bids' begin_ mid with
          | none => none
          | some bids'' => quickSort fuel bids'' (mid + 1) endI
      else some bids := rfl

theorem quickSort_spec :
    ∀ (fuel : ℕ) (bids : List Bid) (b e : ℤ),
      (e - b).toNat < fuel → 0 ≤ b → e < (bids.length : ℤ) →
      ∃ out, quickSort fuel bids b e = some out ∧
        out.length = bids.length ∧ out.Perm bids ∧
        (∀ k : ℤ, k < b ∨ e < k → getI? out k = getI? bids k) ∧
        (∀ x, elemInSeg out b e x → elemInSeg bids b e x) ∧
        (∀ (i j : ℤ) (x y : Bid), b ≤ i → i ≤ j → j ≤ e →
          getI? out i = some x → getI? out j = some y → x.title ≤ y.title) := by
  intro fuel
  induction fuel with
  | zero =>
    intro bids b e hf
    exact absurd hf (by omega)
  | succ fuel ih =>
    intro bids b e hf h0 he
    by_cases hbe : b < e
    · obtain ⟨out1, h, hrun1, hlen1, hperm1, hagree1, hBh, hhE, hlow1, hhigh1, hmem1⟩ :=
        partition_spec h0 hbe he
      obtain ⟨out2, hrun2, hlen2, hperm2, hagree2, hmem2, hsort2⟩ :=
        ih out1 b h (by omega) h0 (by rw [hlen1]; omega)
      obtain ⟨out3, hrun3, hlen3, hperm3, hagree3, hmem3, hsort3⟩ :=
        ih out2 (h + 1) e (by omega) (by omega) (by rw [hlen2, hlen1]; omega)
      refine ⟨out3, ?_, by rw [hlen3, hlen2, hlen1], (hperm3.trans hperm2).trans hperm1,
        ?_, ?_, ?_⟩
      · rw [quickSort_succ, if_pos hbe, hrun1]
        show (match quickSort fuel out1 b h with
          | none => none
          | some bids'' => quickSort fuel bids'' (h + 1) e) = some out3
        rw [hrun2]
        show quickSort fuel out2 (h + 1) e = some out3
        exact hrun3
      · intro k hk
        rw [hagree3 k (by omega), hagree2 k (by omega), hagree1 k hk]
      · intro x hx
        obtain ⟨k, hk1, hk2, hk⟩ := hx
        by_cases hkh : k ≤ h
        · have hk2' : getI? out2 k = some x := by
            rw [← hagree3 k (by omega)]
            exact hk
          obtain ⟨k', hk'1, hk'2, hk'⟩ := hmem2 x ⟨k, hk1, hkh, hk2'⟩
          exact hmem1 x ⟨k', hk'1, by omega, hk'⟩
        · obtain ⟨k', hk'1, hk'2, hk'⟩ := hmem3 x ⟨k, by omega, hk2, hk⟩
          have hk'' : getI? out1 k' = some x := by
            rw [← hagree2 k' (by omega)]
            exact hk'
          exact hmem1 x ⟨k', by omega, hk'2, hk''⟩
      · intro i j x y hbi hij hje hxi hyj
        by_cases hih : i ≤ h
        · by_cases hjh : j ≤ h
          · have hxi2 : getI? out2 i = some x := by
              rw [← hagree3 i (by omega)]
              exact hxi
            have hyj2 : getI? out2 j = some y := by
              rw [← hagree3 j (by omega)]
              exact hyj
            exact hsort2 i j x y hbi hij hjh hxi2 hyj2
          · have hxi2 : getI? out2 i = some x := by
              rw [← hagree3 i (by omega)]
              exact hxi
            obtain ⟨k', hk'1, hk'2, hk'⟩ := hmem2 x ⟨i, hbi, hih, hxi2⟩
            obtain ⟨hk0', hk'len, hkb⟩ := getI?_some_bounds hk'
            have hxpiv : x.title ≤ (bidAt bids ((b + e).tdiv 2).toNat).title := by
              have hh := hlow1 k' hk'1 hk'2
              rw [← hkb] at hh
              exact hh
            obtain ⟨k'', hk''1, hk''2, hk''⟩ := hmem3 y ⟨j, by omega, hje, hyj⟩
            have hk''out1 : getI? out1 k'' = some y := by
              rw [← hagree2 k'' (by omega)]
              exact hk''
            obtain ⟨hk0'', hk''len, hkb''⟩ := getI?_some_bounds hk''out1
            have hypiv : (bidAt bids ((b + e).tdiv 2).toNat).title ≤ y.title := by
              have hh := hhigh1 k'' (by omega) hk''2
              rw [← hkb''] at hh
              exact hh
            exact le_trans hxpiv hypiv
        · exact hsort3 i j x y (by omega) hij hje hxi hyj
    · refine ⟨bids, ?_, rfl, List.Perm.refl _, fun k _ => rfl, fun x hx => hx, ?_⟩
      · rw [quickSort_succ, if_neg hbe]
      · intro i j x y hbi hij hje hxi hyj
        have hij' : i = j := by omega
        subst hij'
        rw [hxi] at hyj
        have hxy := Option.some.inj hyj
        rw [hxy]

theorem quickSortAll_spec (bids : List Bid) :
    ∃ out, quickSortAll bids = some out ∧ out.length = bids.length ∧
      out.Perm bids ∧ sortedByTitle out := by
  obtain ⟨out, hrun, hlen, hperm, -, -, hsort⟩ :=
    quickSort_spec (bids.length + 1) bids 0 ((bids.length : ℤ) - 1)
      (by omega) (by omega) (by omega)
  refine ⟨out, hrun, hlen, hperm, ?_⟩
  rw [sortedByTitle_iff_bidAt]
  intro i j hij hj
  have hi' : getI? out (i : ℤ) = some (bidAt out i) := by
    rw [getI?_pos (by omega) (by omega)]
    simp
  have hj' : getI? out (j : ℤ) = some (bidAt out j) := by
    rw [getI?_pos (by omega) (by omega)]
    simp
  exact hsort (i : ℤ) (j : ℤ) (bidAt out i) (bidAt out j) (by omega) (by omega)
    (by omega) hi' hj'

/-! ## `quickSort` leaves a strictly sorted vector unchanged -/

theorem partition_id {bids : List Bid} {B E : ℤ}
    (hs : strictSortedByTitle bids)
    (hB : 0 ≤ B) (hBE : B < E) (hE : E < (bids.length : ℤ)) :
    partition bids B E = some (bids, (B + E).tdiv 2) := by
  obtain ⟨hm1, hm2⟩ := tdiv_mid_bounds hB hBE
  have hsidx := strictSortedByTitle_iff_bidAt.mp hs
  have hget : getI? bids ((B + E).tdiv 2) = some (bidAt bids ((B + E).tdiv 2).toNat) :=
    getI?_pos (by omega) (by omega)
  rw [partition_eq hget]
  obtain ⟨low', hlowrun⟩ :=
    @scanLow_total bids (bidAt bids ((B + E).tdiv 2).toNat).title (bids.length + 1) B
      ((B + E).tdiv 2) hB hm1 (by omega) (fun hh => absurd hh (lt_irrefl _)) (by omega)
  obtain ⟨-, hlle, hllt, hlstop, hlscan⟩ := scanLow_some hlowrun
  have hlow'eq : low' = (B + E).tdiv 2 := by
    rcases lt_trichotomy low' ((B + E).tdiv 2) with hlt | heq | hgt
    · exact absurd (hsidx low'.toNat ((B + E).tdiv 2).toNat (by omega) (by omega)) hlstop
    · exact heq
    · exact absurd (hlscan ((B + E).tdiv 2) hm1 hgt) (lt_irrefl _)
  subst hlow'eq
  obtain ⟨high', hhighrun⟩ :=
    @scanHigh_total bids (bidAt bids ((B + E).tdiv 2).toNat).title (bids.length + 1) E
      ((B + E).tdiv 2) (by omega) (by omega) hE (fun hh => absurd hh (lt_irrefl _))
      (by omega)
  obtain ⟨h0high', hhle, -, hhstop, hhscan⟩ := scanHigh_some hhighrun
  have hhigh'eq : high' = (B + E).tdiv 2 := by
    rcases lt_trichotomy high' ((B + E).tdiv 2) with hlt | heq | hgt
    · exact absurd (hhscan ((B + E).tdiv 2) hlt (by omega)) (lt_irrefl _)
    · exact heq
    · exact absurd (hsidx ((B + E).tdiv 2).toNat high'.toNat (by omega) (by omega)) hhstop
  subst hhigh'eq
  rw [partLoop_step hlowrun hhighrun, if_pos (le_refl _)]

theorem quickSort_id :
    ∀ (fuel : ℕ) (bids : List Bid) (b e : ℤ),
      (e - b).toNat < fuel → 0 ≤ b → e < (bids.length : ℤ) →
      strictSortedByTitle bids →
      quickSort fuel bids b e = some bids := by
  intro fuel
  induction fuel with
  | zero =>
    intro bids b e hf _ _ _
    exact absurd hf (by omega)
  | succ fuel ih =>
    intro bids b e hf h0 he hs
    by_cases hbe : b < e
    · obtain ⟨hm1, hm2⟩ := tdiv_mid_bounds h0 hbe
      rw [quickSort_succ, if_pos hbe, partition_id hs h0 hbe he]
      show (match quickSort fuel bids b ((b + e).tdiv 2) with
        | none => none
        | some bids'' => quickSort fuel bids'' ((b + e).tdiv 2 + 1) e) = some bids
      rw [ih bids b ((b + e).tdiv 2) (by omega) h0 (by omega) hs]
      show quickSort fuel bids ((b + e).tdiv 2 + 1) e = some bids
      exact ih bids ((b + e).tdiv 2 + 1) e (by omega) (by omega) he hs
    · rw [quickSort_succ, if_neg hbe]

theorem quickSortAll_strict_id {bids : List Bid} (hs : strictSortedByTitle bids) :
    quickSortAll bids = some bids :=
  quickSort_id (bids.length + 1) bids 0 ((bids.length : ℤ) - 1) (by omega) (by omega)
    (by omega) hs

/-! ## Facts about the numeric conversion -/

theorem atofCore_of_scan {s2 : List Char} {neg sg : Bool} {m fracLen : ℕ} {ex : ℤ}
    (hhex : hexPrefix? s2 = none)
    (h : atofScanCore neg s2 = some (sg, m, fracLen, ex)) :
    atofCore neg s2 =
      DoubleVal.val ((if sg then -(m : ℚ) else (m : ℚ)) / 10 ^ fracLen * 10 ^ ex) := by
  unfold atofCore
  rw [hhex, h]

theorem takeWhile_head {p : Char → Bool} {l : List Char}
    (h : l.takeWhile p ≠ []) : ∃ c r, l = c :: r ∧ p c = true := by
  cases l with
  | nil => exact absurd rfl h
  | cons c r =>
    by_cases hc : p c = true
    · exact ⟨c, r, rfl, hc⟩
    · rw [List.takeWhile_cons, if_neg hc] at h
      exact absurd rfl h

theorem dropWhile_of_takeWhile_nil {p : Char → Bool} {l : List Char}
    (h : l.takeWhile p = []) : l.dropWhile p = l := by
  cases l with
  | nil => rfl
  | cons c r =>
    by_cases hc : p c = true
    · rw [List.takeWhile_cons, if_pos hc] at h
      exact absurd h (by simp)
    · rw [List.dropWhile_cons, if_neg hc]

theorem fracDigits_ne_dot {s3 : List Char} (h : ∀ rest, s3 ≠ '.' :: rest) :
    fracDigits s3 = [] := by
  unfold fracDigits
  split
  · rename_i rest
    exact absurd rfl (h rest)
  · rfl

theorem startsDecimal_dot_cons (d : Char) (r' : List Char) :
    startsDecimal ('.' :: d :: r') = d.isDigit := rfl

theorem startsDecimal_cons_ne_dot {c : Char} {r : List Char} (h : c ≠ '.') :
    startsDecimal (c :: r) = c.isDigit := by
  simp only [startsDecimal]
  rw [if_neg h]

theorem atofScanCore_parseable {neg : Bool} {s2 : List Char}
    (h : atofScanCore neg s2 ≠ none) : startsDecimal s2 = true := by
  have hsum : (s2.takeWhile Char.isDigit).length +
      (fracDigits (s2.dropWhile Char.isDigit)).length ≠ 0 := by
    intro hs
    exact h (by unfold atofScanCore; rw [if_pos hs])
  by_cases hint : s2.takeWhile Char.isDigit = []
  · have hdrop : s2.dropWhile Char.isDigit = s2 := dropWhile_of_takeWhile_nil hint
    rw [hint, hdrop] at hsum
    have hfrac : fracDigits s2 ≠ [] := by
      intro hf
      rw [hf] at hsum
      exact hsum rfl
    obtain ⟨rest, hrest⟩ : ∃ rest, s2 = '.' :: rest := by
      by_cases hdot : ∃ rest, s2 = '.' :: rest
      · exact hdot
      · push_neg at hdot
        exact absurd (fracDigits_ne_dot hdot) hfrac
    subst hrest
    have hfrac' : rest.takeWhile Char.isDigit ≠ [] := fun hf => hfrac hf
    obtain ⟨d, r', hr, hd⟩ := takeWhile_head hfrac'
    subst hr
    rw [startsDecimal_dot_cons]
    exact hd
  · obtain ⟨c, r, hcr, hc⟩ := takeWhile_head hint
    subst hcr
    have hcdot : c ≠ '.' := by
      intro hh
      rw [hh] at hc
      exact absurd hc (by decide)
    rw [startsDecimal_cons_ne_dot hcdot]
    exact hc

theorem atofScanCore_none_of_not_starts {neg : Bool} {s2 : List Char}
    (h : startsDecimal s2 = false) : atofScanCore neg s2 = none := by
  by_contra hne
  rw [atofScanCore_parseable hne] at h
  exact Bool.noConfusion h

theorem hexPrefix_none_of_not_starts {s2 : List Char}
    (h : startsDecimal s2 = false) : hexPrefix? s2 = none := by
  unfold hexPrefix?
  split
  · rename_i c x rest
    rw [if_neg]
    rintro ⟨hc0, -, -⟩
    subst hc0
    rw [startsDecimal_cons_ne_dot (by decide)] at h
    exact absurd h (by decide)
  · rfl

theorem atofCore_zero {neg : Bool} {s2 : List Char}
    (h : startsDecimal s2 = false) (hsp : specialOf s2 = none) :
    atofCore neg s2 = DoubleVal.val 0 := by
  unfold atofCore
  rw [hexPrefix_none_of_not_starts h, atofScanCore_none_of_not_starts h, hsp]

theorem atof_zero {s : List Char}
    (h : decimalParseable s = false) (hsp : specialForm s = none) :
    atof s = DoubleVal.val 0 := by
  unfold decimalParseable at h
  unfold specialForm at hsp
  unfold atof
  cases hs1 : s.dropWhile isSpaceC with
  | nil => rfl
  | cons c rest =>
    rw [hs1] at h hsp
    have h' : (if c = '-' ∨ c = '+' then startsDecimal rest
        else startsDecimal (c :: rest)) = false := h
    have hsp' : (if c = '-' ∨ c = '+' then specialOf rest
        else specialOf (c :: rest)) = none := hsp
    show (if c = '-' then atofCore true rest
      else if c = '+' then atofCore false rest
      else atofCore false (c :: rest)) = DoubleVal.val 0
    by_cases hminus : c = '-'
    · rw [if_pos (Or.inl hminus)] at h' hsp'
      rw [if_pos hminus]
      exact atofCore_zero h' hsp'
    · by_cases hplus : c = '+'
      · rw [if_pos (Or.inr hplus)] at h' hsp'
        rw [if_neg hminus, if_pos hplus]
        exact atofCore_zero h' hsp'
      · rw [if_neg (by tauto)] at h' hsp'
        rw [if_neg hminus, if_neg hplus]
        exact atofCore_zero h' hsp'

theorem strToDouble_unparseable {str : List Char} {ch : Char}
    (h : decimalParseable (str.filter (fun c => c ≠ ch)) = false)
    (hsp : specialForm (str.filter (fun c => c ≠ ch)) = none) :
    strToDouble str ch = DoubleVal.val 0 :=
  atof_zero h hsp

/-! ## Facts about the loader -/

theorem loadBidsLoop_succ (src : CsvSource) (fuel i : ℕ) (acc : List Bid) :
    loadBidsLoop src (fuel + 1) i acc =
      if i < src.rowCount then
        match parseBid src i with
        | Except.ok bid => loadBidsLoop src fuel (i + 1) (acc ++ [bid])
        | Except.error e => (acc, some e)
      else (acc, none) := rfl

theorem loadBidsLoop_run (src : CsvSource) (k : ℕ) (e : List Char)
    (hk : k < src.rowCount)
    (hok : ∀ j, j < k → ∃ b, parseBid src j = Except.ok b)
    (herr : parseBid src k = Except.error e) :
    ∀ (fuel i : ℕ) (acc : List Bid), i ≤ k → k - i < fuel →
      loadBidsLoop src fuel i acc =
        (acc ++ (List.range' i (k - i)).filterMap (fun j => (parseBid src j).toOption),
         some e) := by
  intro fuel
  induction fuel with
  | zero =>
    intro i acc hik hf
    exact absurd hf (by omega)
  | succ fuel ih =>
    intro i acc hik hf
    rcases Nat.eq_or_lt_of_le hik with hik' | hik'
    · subst hik'
      have hrun : loadBidsLoop src (fuel + 1) i acc = (acc, some e) := by
        rw [loadBidsLoop_succ, if_pos hk, herr]
      rw [hrun]
      have hz : i - i = 0 := by omega
      rw [hz]
      simp
    · obtain ⟨b, hb⟩ := hok i hik'
      have hstep : loadBidsLoop src (fuel + 1) i acc =
          loadBidsLoop src fuel (i + 1) (acc ++ [b]) := by
        rw [loadBidsLoop_succ, if_pos (by omega), hb]
      rw [hstep, ih (i + 1) (acc ++ [b]) (by omega) (by omega)]
      have hr : List.range' i (k - i) = i :: List.range' (i + 1) (k - i - 1) := by
        have hsuc : k - i = (k - i - 1) + 1 := by omega
        rw [hsuc]
        rfl
      have htop : (parseBid src i).toOption = some b := by
        rw [hb]
        rfl
      rw [hr, List.filterMap_cons, htop]
      have hmi : k - (i + 1) = k - i - 1 := by omega
      rw [hmi]
      simp

theorem loadBids_partial (src : CsvSource) (k : ℕ) (e : List Char)
    (hk : k < src.rowCount)
    (hok : ∀ j, j < k → ∃ b, parseBid src j = Except.ok b)
    (herr : parseBid src k = Except.error e) :
    loadBids src =
      ((List.range k).filterMap (fun j => (parseBid src j).toOption), some e) := by
  unfold loadBids
  rw [loadBidsLoop_run src k e hk hok herr src.rowCount 0 [] (by omega) (by omega)]
  rw [List.range_eq_range']
  have hz : k - 0 = k := by omega
  rw [hz]
  simp

theorem filterMap_ok_length (src : CsvSource) :
    ∀ (m i : ℕ), (∀ j, i ≤ j → j < i + m → ∃ b, parseBid src j = Except.ok b) →
      ((List.range' i m).filterMap (fun j => (parseBid src j).toOption)).length = m := by
  intro m
  induction m with
  | zero =>
    intro i _
    rfl
  | succ m ih =>
    intro i hok
    obtain ⟨b, hb⟩ := hok i (le_refl _) (by omega)
    have htop : (parseBid src i).toOption = some b := by
      rw [hb]
      rfl
    rw [show List.range' i (m + 1) = i :: List.range' (i + 1) m from rfl,
      List.filterMap_cons, htop]
    show (b :: (List.range' (i + 1) m).filterMap (fun j => (parseBid src j).toOption)).length
      = m + 1
    rw [List.length_cons, ih (i + 1) (fun j hj1 hj2 => hok j (by omega) (by omega))]

/-! ## Sorted permutations: title agreement and uniqueness -/

theorem sorted_perm_titles_eq {l1 l2 : List Bid} (hperm : l1.Perm l2)
    (hs1 : sortedByTitle l1) (hs2 : sortedByTitle l2) :
    l1.map Bid.title = l2.map Bid.title := by
  exact @List.eq_of_perm_of_sorted (List Char) (fun a b => a ≤ b) inferInstance _ _
    (hperm.map Bid.title) (List.pairwise_map.mpr hs1) (List.pairwise_map.mpr hs2)

theorem sorted_perm_nodup_eq {l1 l2 : List Bid} (hperm : l1.Perm l2)
    (hs1 : sortedByTitle l1) (hs2 : sortedByTitle l2)
    (hnd : (l1.map Bid.title).Nodup) :
    l1 = l2 := by
  haveI hanti : IsAntisymm Bid (fun a b => a.title < b.title) :=
    ⟨fun a b h1 h2 => absurd (lt_trans h1 h2) (lt_irrefl _)⟩
  have hne1 : l1.Pairwise (fun a b => a.title ≠ b.title) := List.pairwise_map.mp hnd
  have hnd2 : (l2.map Bid.title).Nodup := hnd.perm (hperm.map Bid.title)
  have hne2 : l2.Pairwise (fun a b => a.title ≠ b.title) := List.pairwise_map.mp hnd2
  have hstrict1 : l1.Pairwise (fun a b => a.title < b.title) :=
    (hs1.and hne1).imp (fun hab => lt_of_le_of_ne hab.1 hab.2)
  have hstrict2 : l2.Pairwise (fun a b => a.title < b.title) :=
    (hs2.and hne2).imp (fun hab => lt_of_le_of_ne hab.1 hab.2)
  exact @List.eq_of_perm_of_sorted Bid (fun a b => a.title < b.title) hanti l1 l2
    hperm hstrict1 hstrict2

/-! ## Concrete values of `strToDouble` on the spec's examples -/

theorem strToDouble_dollar_example :
    strToDouble "$1,200.50".toList '$' = DoubleVal.val 1 := by
  have hstep : strToDouble "$1,200.50".toList '$' =
      atofCore false ("1,200.50".toList) := rfl
  have hscan : atofScanCore false ("1,200.50".toList) = some (false, 1, 0, 0) := by
    decide
  rw [hstep, atofCore_of_scan (by decide) hscan]
  norm_num

theorem strToDouble_comma_example :
    strToDouble "1,200".toList ',' = DoubleVal.val 1200 := by
  have hstep : strToDouble "1,200".toList ',' = atofCore false ("1200".toList) := rfl
  have hscan : atofScanCore false ("1200".toList) = some (false, 1200, 0, 0) := by
    decide
  rw [hstep, atofCore_of_scan (by decide) hscan]
  norm_num

/-! ## Concrete records for counterexamples and witnesses

`bidB1` and `bidB2` share the title `"B"` but are distinct records;
`bidA` has the smaller title `"A"`. -/

def bidA : Bid := ⟨"1".toList, "A".toList, "F".toList, DoubleVal.val 0⟩

def bidB1 : Bid := ⟨"2".toList, "B".toList, "F".toList, DoubleVal.val 0⟩

def bidB2 : Bid := ⟨"3".toList, "B".toList, "F".toList, DoubleVal.val 0⟩

/-! ## Claim C1 -/

/-- C1, counterexample: the empty sequence is (trivially) orderable, yet
`selectionSort` performs an out-of-bounds access on it (the guard
`pos < size - 1` compares the `size_t` counter against `(size_t)(-1)`, the
body runs, and `swap(bids[0], bids[0])` indexes an empty vector), modelled
as `none`: the run yields no ordered sequence, so the claim fails for
`selectionSort` at the empty sequence. -/
theorem C1_cex :
    sortedByTitle ([] : List Bid) ∧ selectionSort ([] : List Bid) = none :=
  ⟨by decide, by decide⟩

/-- C1 (amended): for every nonempty sequence (of `int`-representable
length), `selectionSort` completes without fault and its result is ordered
ascending by title; for every sequence, the driver's `quickSort` invocation
over `[0, N-1]` completes without fault and its result is ordered ascending
by title.  (On the empty sequence `selectionSort` faults instead, see the
counterexample.) -/
theorem C1_sorted :
    (∀ bids : List Bid, bids ≠ [] → bids.length < 2 ^ 31 →
      ∃ out, selectionSort bids = some out ∧ sortedByTitle out) ∧
    (∀ bids : List Bid, ∃ out, quickSortAll bids = some out ∧ sortedByTitle out) := by
  constructor
  · intro bids hne hlen
    obtain ⟨out, h1, -, -, h4⟩ := selectionSort_spec hne hlen
    exact ⟨out, h1, h4⟩
  · intro bids
    obtain ⟨out, h1, -, -, h4⟩ := quickSortAll_spec bids
    exact ⟨out, h1, h4⟩

/-- C1, witness: the amended claim applied to a concrete three-bid vector. -/
theorem C1_sorted_witness :
    ([bidB1, bidA, bidB2] ≠ ([] : List Bid) ∧ [bidB1, bidA, bidB2].length < 2 ^ 31) ∧
    (∃ out, selectionSort [bidB1, bidA, bidB2] = some out ∧ sortedByTitle out) :=
  ⟨⟨by decide, by decide⟩, C1_sorted.1 [bidB1, bidA, bidB2] (by decide) (by decide)⟩

/-! ## Claim C2 -/

/-- C2: evaluation at the failing input.  With zero records loaded,
`selectionSort`'s guard `pos < size - 1` mixes `size_t` and `int`:
`size - 1 = -1` converts to `2 ^ 64 - 1`, so the body runs and
`swap(bids[0], bids[0])` accesses the empty vector out of bounds (modelled
`none`); the driver's `quickSort(bids, 0, bids.size() - 1)` call receives
`end = -1` and is a harmless no-op, as the claim states. -/
theorem C2_empty_eval :
    selectionSort ([] : List Bid) = none ∧ quickSortAll ([] : List Bid) = some [] :=
  ⟨by decide, by decide⟩

/-! ## Claim C3 -/

/-- C3, counterexample: `strToDouble("$1,200.50", '$')` does not return
1200.50 — stripping `'$'` leaves `"1,200.50"` and `atof` stops at the
comma, so the result is the finite value 1, which is strictly below the
claimed 1200.50. -/
theorem C3_cex :
    strToDouble "$1,200.50".toList '$' = DoubleVal.val 1 ∧ (1 : ℚ) < 1200.50 :=
  ⟨strToDouble_dollar_example, by norm_num⟩

/-- C3 (amended): `strToDouble("$1,200.50", '$')` returns 1 (the parse of
the remainder `"1,200.50"` stops at the comma), while
`strToDouble("1,200", ',')` returns 1200; the conversion therefore depends
on which character is stripped. -/
theorem C3_values :
    strToDouble "$1,200.50".toList '$' = DoubleVal.val 1 ∧
    strToDouble "1,200".toList ',' = DoubleVal.val 1200 :=
  ⟨strToDouble_dollar_example, strToDouble_comma_example⟩

/-! ## Claim C4 -/

/-- C4, counterexample: the already-sorted sequence `[A, B1, B2]` (the two
`B`-titled records equal in title but distinct, so the output differs from
the input) is changed by the driver's `quickSort`: the Hoare partition
swaps the two equal-title records.  Also, `selectionSort` does not return
the (sorted) empty sequence unchanged — it faults. -/
theorem C4_cex :
    sortedByTitle [bidA, bidB1, bidB2] ∧
    quickSortAll [bidA, bidB1, bidB2] = some [bidA, bidB2, bidB1] ∧
    ((bidB1 == bidB2) = false) ∧
    selectionSort ([] : List Bid) = none :=
  ⟨by decide, by decide, by decide, by decide⟩

/-- C4 (amended): `selectionSort` leaves every already-sorted nonempty
sequence (of `int`-representable length) unchanged; `quickSort` over
`[0, N-1]` leaves every sequence whose titles are strictly increasing
(sorted with pairwise-distinct titles) unchanged.  With duplicate titles
`quickSort` may reorder equal-title records, and on the empty sequence
`selectionSort` faults, as the counterexample shows. -/
theorem C4_idem :
    (∀ bids : List Bid, sortedByTitle bids → bids ≠ [] → bids.length < 2 ^ 31 →
      selectionSort bids = some bids) ∧
    (∀ bids : List Bid, strictSortedByTitle bids → quickSortAll bids = some bids) :=
  ⟨fun _ hs hne hlen => selectionSort_sorted_id hne hlen hs,
   fun _ hs => quickSortAll_strict_id hs⟩

/-- C4, witness: the amended claim at concrete sorted vectors. -/
theorem C4_idem_witness :
    (sortedByTitle [bidA, bidB1, bidB2] ∧ [bidA, bidB1, bidB2] ≠ ([] : List Bid) ∧
      [bidA, bidB1, bidB2].length < 2 ^ 31 ∧
      selectionSort [bidA, bidB1, bidB2] = some [bidA, bidB1, bidB2]) ∧
    (strictSortedByTitle [bidA, bidB1] ∧ quickSortAll [bidA, bidB1] = some [bidA, bidB1]) :=
  ⟨⟨by decide, by decide, by decide,
      C4_idem.1 [bidA, bidB1, bidB2] (by decide) (by decide) (by decide)⟩,
   ⟨by decide, C4_idem.2 [bidA, bidB1] (by decide)⟩⟩

/-! ## Claim C5 -/

/-- C5, counterexample: on `[B1, A, B2]` (`B1` and `B2` equal in title but
distinct records) `selectionSort` and the driver's `quickSort` produce
different sequences — the equal-title records end up in opposite orders —
so the outputs are not identical record-for-record. -/
theorem C5_cex :
    selectionSort [bidB1, bidA, bidB2] = some [bidA, bidB1, bidB2] ∧
    quickSortAll [bidB1, bidA, bidB2] = some [bidA, bidB2, bidB1] ∧
    ((([bidA, bidB1, bidB2] : List Bid) == [bidA, bidB2, bidB1]) = false) :=
  ⟨by decide, by decide, by decide⟩

/-- C5 (amended): for every nonempty sequence (of `int`-representable
length) both sorts complete and produce sequences with the same title at
every position (both are title-sorted permutations of the input); when the
input's titles are pairwise distinct the two outputs are identical
record-for-record.  With duplicate titles they can differ, and on the empty
sequence `selectionSort` faults, as the counterexample shows. -/
theorem C5_agree :
    ∀ bids : List Bid, bids ≠ [] → bids.length < 2 ^ 31 →
      ∃ ls lq, selectionSort bids = some ls ∧ quickSortAll bids = some lq ∧
        ls.map Bid.title = lq.map Bid.title ∧
        ((bids.map Bid.title).Nodup → ls = lq) := by
  intro bids hne hlen
  obtain ⟨ls, hs1, -, hsperm, hssort⟩ := selectionSort_spec hne hlen
  obtain ⟨lq, hq1, -, hqperm, hqsort⟩ := quickSortAll_spec bids
  have hperm : ls.Perm lq := hsperm.trans hqperm.symm
  refine ⟨ls, lq, hs1, hq1, sorted_perm_titles_eq hperm hssort hqsort, ?_⟩
  intro hnd
  have hnd1 : (ls.map Bid.title).Nodup := hnd.perm (hsperm.map Bid.title).symm
  exact sorted_perm_nodup_eq hperm hssort hqsort hnd1

/-- C5, witness: the amended claim at a concrete two-bid vector with
distinct titles. -/
theorem C5_agree_witness :
    ([bidB1, bidA] ≠ ([] : List Bid) ∧ [bidB1, bidA].length < 2 ^ 31) ∧
    (∃ ls lq, selectionSort [bidB1, bidA] = some ls ∧
      quickSortAll [bidB1, bidA] = some lq ∧
      ls.map Bid.title = lq.map Bid.title ∧
      (([bidB1, bidA].map Bid.title).Nodup → ls = lq)) :=
  ⟨⟨by decide, by decide⟩, C5_agree [bidB1, bidA] (by decide) (by decide)⟩

/-! ## Claim C6 -/

/-- C6, counterexample: for `N = 0` the claim fails for `selectionSort`:
the run faults on an out-of-bounds access (modelled `none`), so no output
sequence exists at all — in particular none of length 0 that is a
permutation of the input. -/
theorem C6_cex : (selectionSort ([] : List Bid)).isSome = false := by
  decide

/-- C6 (amended): for every nonempty sequence of `int`-representable
length, `selectionSort` completes and returns a sequence of the same length
that is a permutation of the input (records moved wholesale by swaps, no
record dropped, duplicated or field-modified); for every sequence the
driver's `quickSort` invocation does the same.  For `N = 0`,
`selectionSort` faults instead of returning the empty sequence. -/
theorem C6_perm :
    (∀ bids : List Bid, bids ≠ [] → bids.length < 2 ^ 31 →
      ∃ out, selectionSort bids = some out ∧ out.length = bids.length ∧ out.Perm bids) ∧
    (∀ bids : List Bid,
      ∃ out, quickSortAll bids = some out ∧ out.length = bids.length ∧ out.Perm bids) := by
  constructor
  · intro bids hne hlen
    obtain ⟨out, h1, h2, h3, -⟩ := selectionSort_spec hne hlen
    exact ⟨out, h1, h2, h3⟩
  · intro bids
    obtain ⟨out, h1, h2, h3, -⟩ := quickSortAll_spec bids
    exact ⟨out, h1, h2, h3⟩

/-- C6, witness: the amended claim at a concrete three-bid vector. -/
theorem C6_perm_witness :
    ([bidB2, bidA, bidB1] ≠ ([] : List Bid) ∧ [bidB2, bidA, bidB1].length < 2 ^ 31) ∧
    (∃ out, selectionSort [bidB2, bidA, bidB1] = some out ∧
      out.length = [bidB2, bidA, bidB1].length ∧ out.Perm [bidB2, bidA, bidB1]) :=
  ⟨⟨by decide, by decide⟩, C6_perm.1 [bidB2, bidA, bidB1] (by decide) (by decide)⟩

/-! ## Claim C7 -/

/-- C7, counterexample: `selectionSort` does not preserve the original
relative order of equal-title records: on `[B1, B2, A]` (with
`B1.title = B2.title` and `B1 ≠ B2`, `B1` before `B2`), the first swap
moves `A` to the front and `B1` to the back, producing `[A, B2, B1]` — the
equal-title records come out in reversed relative order. -/
theorem C7_cex :
    bidB1.title = bidB2.title ∧ ((bidB1 == bidB2) = false) ∧
    selectionSort [bidB1, bidB2, bidA] = some [bidA, bidB2, bidB1] :=
  ⟨by decide, by decide, by decide⟩

/-- C7 (amended): the inner scan of `selectionSort` does select the first
minimum: `minIndexFrom` (invoked as in the source at position `pos`)
returns the smallest index of the unsorted suffix `[pos, N)` attaining the
minimum title — the strict `<` comparison never replaces the current
minimum by a later equal one.  The position swap, however, does not
preserve the relative order of equal-title records in general (see the
counterexample). -/
theorem C7_first_min (bids : List Bid) (pos : ℕ) (hpos : pos < bids.length)
    (hlen : bids.length < 2 ^ 31) :
    ∃ m, minIndexFrom (bids.length : ℤ) bids (toUSize (bids.length : ℤ)) pos (pos + 1)
        = some m ∧
      pos ≤ m ∧ m < bids.length ∧
      (∀ k, pos ≤ k → k < bids.length → (bidAt bids m).title ≤ (bidAt bids k).title) ∧
      (∀ k, pos ≤ k → k < m → (bidAt bids m).title < (bidAt bids k).title) := by
  have hsz : toUSize (bids.length : ℤ) = bids.length := by
    rw [toUSize_of_small (by omega) (by omega)]
    omega
  obtain ⟨m, hm, hmlt, hmloc, hmle, hmall, hmfirst, hmstrict⟩ :=
    minIndexFrom_spec (bids.length : ℤ) bids hsz (toUSize (bids.length : ℤ)) pos (pos + 1)
      (by rw [hsz]; omega) (by omega) (by omega)
  refine ⟨m, hm, by rcases hmloc with h | h <;> omega, hmlt, ?_, ?_⟩
  · intro k hk1 hk2
    rcases Nat.eq_or_lt_of_le hk1 with hk | hk
    · rw [← hk]
      exact hmle
    · exact hmall k (by omega) hk2
  · intro k hk1 hk3
    rcases Nat.eq_or_lt_of_le hk1 with hk | hk
    · rw [← hk]
      rcases hmstrict with hs | hs
      · exact hs
      · exact absurd hk3 (by omega)
    · exact hmfirst k (by omega) hk3

/-- C7, witness: the first-minimum property at a concrete vector with a
duplicated minimal title. -/
theorem C7_first_min_witness :
    (0 < [bidB1, bidB2, bidA].length ∧ [bidB1, bidB2, bidA].length < 2 ^ 31) ∧
    (∃ m, minIndexFrom ([bidB1, bidB2, bidA].length : ℤ) [bidB1, bidB2, bidA]
        (toUSize ([bidB1, bidB2, bidA].length : ℤ)) 0 (0 + 1) = some m ∧
      0 ≤ m ∧ m < [bidB1, bidB2, bidA].length ∧
      (∀ k, 0 ≤ k → k < [bidB1, bidB2, bidA].length →
        (bidAt [bidB1, bidB2, bidA] m).title ≤ (bidAt [bidB1, bidB2, bidA] k).title) ∧
      (∀ k, 0 ≤ k → k < m →
        (bidAt [bidB1, bidB2, bidA] m).title < (bidAt [bidB1, bidB2, bidA] k).title)) :=
  ⟨⟨by decide, by decide⟩, C7_first_min [bidB1, bidB2, bidA] 0 (by decide) (by decide)⟩

/-! ## Claim C8 -/

/-- C8: if every row before index `k` parses to a bid and row `k` raises a
parse error (missing row data or a missing consumed column, i.e. a
malformed row structure), then `loadBids` reports that error (the `cerr`
report, second component) and returns exactly the bids of the successfully
parsed rows `0..k-1`, one per row, in file order — it neither aborts nor
discards the earlier rows. -/
theorem C8_partial_load (src : CsvSource) (k : ℕ) (e : List Char)
    (hk : k < src.rowCount)
    (hok : ∀ j, j < k → ∃ b, parseBid src j = Except.ok b)
    (herr : parseBid src k = Except.error e) :
    loadBids src =
      ((List.range k).filterMap (fun j => (parseBid src j).toOption), some e) ∧
    (loadBids src).1.length = k := by
  have h1 := loadBids_partial src k e hk hok herr
  refine ⟨h1, ?_⟩
  rw [h1]
  show ((List.range k).filterMap (fun j => (parseBid src j).toOption)).length = k
  rw [List.range_eq_range']
  exact filterMap_ok_length src k 0 (fun j _ hj2 => hok j (by omega))

/-- Modelled from the spec: a concrete two-row source whose first row has
the nine expected columns and whose second row is malformed (only three
columns, so reading the fund column at index 8 raises). -/
def demoSrc : CsvSource where
  rowCount := 2
  row := fun i =>
    if i = 0 then
      Except.ok ["Bridge".toList, "001".toList, [], [], "$500.00".toList,
        [], [], [], "FundA".toList]
    else if i = 1 then
      Except.ok ["Arch".toList, "002".toList, "$100.00".toList]
    else
      Except.error "row".toList

/-- C8, witness: the partial-load theorem at the concrete source: row 0
parses, row 1 fails on its missing column, and `loadBids` returns the one
parsed bid together with the reported error. -/
theorem C8_partial_load_witness :
    (1 < demoSrc.rowCount ∧
      (∀ j, j < 1 → ∃ b, parseBid demoSrc j = Except.ok b) ∧
      parseBid demoSrc 1 = Except.error "col".toList) ∧
    (loadBids demoSrc =
      ((List.range 1).filterMap (fun j => (parseBid demoSrc j).toOption),
        some "col".toList) ∧
      (loadBids demoSrc).1.length = 1) :=
  ⟨⟨by decide,
    fun j hj => by
      have hj0 : j = 0 := by omega
      subst hj0
      exact ⟨_, rfl⟩,
    rfl⟩,
   C8_partial_load demoSrc 1 "col".toList (by decide)
     (fun j hj => by
       have hj0 : j = 0 := by omega
       subst hj0
       exact ⟨_, rfl⟩)
     rfl⟩

/-! ## Claim C9 -/

/-- C9, counterexample: the remainder `"inf"` is not parseable as a decimal
number, yet `strToDouble("inf", '$')` returns positive infinity (`atof`
accepts the `INF` subject sequence), not zero. -/
theorem C9_cex :
    decimalParseable ("inf".toList.filter (fun c => c ≠ '$')) = false ∧
    strToDouble "inf".toList '$' = DoubleVal.inf false ∧
    ((DoubleVal.inf false == DoubleVal.val 0) = false) :=
  ⟨by decide, by decide, by decide⟩

/-- C9 (amended): whenever the remainder after stripping is empty or is not
parseable as a decimal number (after optional whitespace and one optional
sign it starts with neither a digit nor a decimal point followed by a
digit), and is moreover not one of the `INF`/`INFINITY`/`NAN` subject
sequences of `atof` (which yield an infinity or a NaN instead of zero),
`strToDouble` returns 0.  The model is a total function: no exception
reaches the caller, matching `atof`, which reports no errors. -/
theorem C9_silent_zero :
    ∀ (str : List Char) (ch : Char),
      (str.filter (fun c => c ≠ ch) = [] ∨
        decimalParseable (str.filter (fun c => c ≠ ch)) = false) →
      specialForm (str.filter (fun c => c ≠ ch)) = none →
      strToDouble str ch = DoubleVal.val 0 := by
  intro str ch h hsp
  apply strToDouble_unparseable _ hsp
  rcases h with h | h
  · rw [h]
    rfl
  · exact h

/-- C9, witness: the silent-zero theorem at the concrete unparseable
remainder `"N/A"` and at a remainder emptied by stripping. -/
theorem C9_silent_zero_witness :
    (decimalParseable ("N/A".toList.filter (fun c => c ≠ '$')) = false ∧
      specialForm ("N/A".toList.filter (fun c => c ≠ '$')) = none ∧
      strToDouble "N/A".toList '$' = DoubleVal.val 0) ∧
    ("$".toList.filter (fun c => c ≠ '$') = [] ∧
      specialForm ("$".toList.filter (fun c => c ≠ '$')) = none ∧
      strToDouble "$".toList '$' = DoubleVal.val 0) :=
  ⟨⟨by decide, by decide,
    C9_silent_zero "N/A".toList '$' (Or.inr (by decide)) (by decide)⟩,
   ⟨by decide, by decide,
    C9_silent_zero "$".toList '$' (Or.inl (by decide)) (by decide)⟩⟩

/-! ## Claim C10 -/

/-- C10: for every vector and indices `0 ≤ begin < end < N`, `partition`
completes without fault and returns a split index `h` with
`begin ≤ h < end`, so both recursive sub-ranges `[begin, h]` and
`[h+1, end]` of `quickSort` are strictly smaller than `[begin, end]`; and
`quickSort` itself terminates without fault on every such range (any fuel
exceeding the range width — in particular the driver's choice — is never
exhausted).  These bounds are exactly what makes the C++ recursion
well-founded. -/
theorem C10_partition_bounds :
    (∀ (bids : List Bid) (b e : ℤ), 0 ≤ b → b < e → e < (bids.length : ℤ) →
      ∃ out h, partition bids b e = some (out, h) ∧ b ≤ h ∧ h < e) ∧
    (∀ (fuel : ℕ) (bids : List Bid) (b e : ℤ),
      (e - b).toNat < fuel → 0 ≤ b → e < (bids.length : ℤ) →
      ∃ out, quickSort fuel bids b e = some out) := by
  constructor
  · intro bids b e h0 hbe he
    obtain ⟨out, h, hrun, -, -, -, hBh, hhE, -, -, -⟩ := partition_spec h0 hbe he
    exact ⟨out, h, hrun, hBh, hhE⟩
  · intro fuel bids b e hf h0 he
    obtain ⟨out, hrun, -, -, -, -, -⟩ := quickSort_spec fuel bids b e hf h0 he
    exact ⟨out, hrun⟩

/-- C10, witness: partition bounds and quicksort completion on a concrete
three-bid vector over the full range `[0, 2]`. -/
theorem C10_partition_bounds_witness :
    ((0 : ℤ) ≤ 0 ∧ (0 : ℤ) < 2 ∧ (2 : ℤ) < (([bidB1, bidA, bidB2] : List Bid).length : ℤ) ∧
      (∃ out h, partition [bidB1, bidA, bidB2] 0 2 = some (out, h) ∧ 0 ≤ h ∧ h < 2)) ∧
    (((2 : ℤ) - 0).toNat < 4 ∧
      (∃ out, quickSort 4 [bidB1, bidA, bidB2] 0 2 = some out)) :=
  ⟨⟨by decide, by decide, by decide,
      C10_partition_bounds.1 [bidB1, bidA, bidB2] 0 2 (by decide) (by decide) (by decide)⟩,
   ⟨by decide,
      C10_partition_bounds.2 4 [bidB1, bidA, bidB2] 0 2 (by decide) (by decide) (by decide)⟩⟩
